import Mathlib

/-!
Verification development for the `scrape_google_flights.py` scraper.

The source file's pure logic is shallowly embedded here:

* Python `datetime.date` values become the `Date` structure below, with the
  proleptic-Gregorian helpers (`isLeap`, `daysInMonth`, `toOrdinal`,
  `nextDay`) that CPython's `datetime` module uses; `date` construction
  (which validates its arguments and raises `ValueError` otherwise) becomes
  `mkValidDate : … → Option Date`.
* Python strings become `List Char`; Python byte strings become `List Nat`
  (each element a byte value).  The stdlib string/regex operations the
  scraper uses (`str.split`, `str.strip`, `re.search` with the three concrete
  patterns appearing in the source, `re.sub` for the `([AP]M)(\+\d)` rule,
  `base64.urlsafe_b64encode/b64decode`) are implemented here over those
  representations with the semantics they have on the inputs the scraper
  feeds them.  `unicodedata.normalize("NFKC", ·)` is modelled as the
  identity: every text the claims touch is ASCII, on which NFKC is the
  identity.
* The Selenium-facing functions are embedded over the data they extract: a
  result card is the tuple of texts the extractors read from it, and the
  live page driving `gather_cards`' pagination loop is an oracle giving the
  rendered card count and show-more visibility at each iteration.
-/

namespace Scrape

/-! ## Calendar model (CPython `datetime.date` arithmetic) -/

/-- Gregorian leap-year test, as in `calendar.isleap` /  `datetime._is_leap`. -/
def isLeap (y : Nat) : Bool :=
  (y % 4 == 0 && y % 100 != 0) || y % 400 == 0

/-- Number of days in month `m` of year `y` (months are 1-based). -/
def daysInMonth (y m : Nat) : Nat :=
  if m = 2 then (if isLeap y then 29 else 28)
  else if m = 4 ∨ m = 6 ∨ m = 9 ∨ m = 11 then 30
  else 31

/-- A calendar date, mirroring `datetime.date`'s year/month/day fields. -/
structure Date where
  year : Nat
  month : Nat
  day : Nat
deriving DecidableEq

/-- The well-formedness invariant `datetime.date.__new__` enforces (we keep
the lower bounds; the `year ≤ 9999` upper bound is checked where the source
constructs dates, see `mkValidDate`). -/
def Date.Valid (d : Date) : Prop :=
  1 ≤ d.year ∧ 1 ≤ d.month ∧ d.month ≤ 12 ∧ 1 ≤ d.day ∧ d.day ≤ daysInMonth d.year d.month

instance (d : Date) : Decidable d.Valid := by
  unfold Date.Valid; infer_instance

/-- Days in year `y` strictly before month `m` (so `daysBeforeMonth y 1 = 0`). -/
def daysBeforeMonth (y : Nat) : Nat → Nat
  | 0 => 0
  | m + 1 => daysBeforeMonth y m + (if m = 0 then 0 else daysInMonth y m)

/-- Number of leap years among `1 … y-1`, as in `datetime._days_before_year`. -/
def leapsBefore (y : Nat) : Nat :=
  (y - 1) / 4 - (y - 1) / 100 + (y - 1) / 400

/-- Days before January 1st of year `y`, counted from the proleptic epoch. -/
def daysBeforeYear (y : Nat) : Nat :=
  365 * (y - 1) + leapsBefore y

/-- Python's `date.toordinal`: day number with `0001-01-01` mapped to `1`. -/
def Date.toOrdinal (d : Date) : Nat :=
  daysBeforeYear d.year + daysBeforeMonth d.year d.month + d.day

/-- The successor date (what adding `timedelta(days=1)` produces). -/
def Date.nextDay (d : Date) : Date :=
  if d.day < daysInMonth d.year d.month then ⟨d.year, d.month, d.day + 1⟩
  else if d.month < 12 then ⟨d.year, d.month + 1, 1⟩
  else ⟨d.year + 1, 1, 1⟩

/-- `date + timedelta(days=n)` as `n`-fold successor. -/
def Date.addDays (d : Date) (n : Nat) : Date :=
  Nat.rec d (fun _ acc => acc.nextDay) n

/-- Python's `date.__lt__`: lexicographic comparison of `(y, m, d)`. -/
def Date.ltb (a b : Date) : Bool :=
  a.year < b.year ||
    (a.year == b.year && (a.month < b.month ||
      (a.month == b.month && a.day < b.day)))

/-- The checked `date(year, month, day)` constructor: `some` exactly when
CPython's constructor succeeds (`MINYEAR ≤ year ≤ MAXYEAR` and a real
calendar day), `none` where CPython raises `ValueError`. -/
def mkValidDate (y m dd : Nat) : Option Date :=
  if 1 ≤ y ∧ y ≤ 9999 ∧ 1 ≤ m ∧ m ≤ 12 ∧ 1 ≤ dd ∧ dd ≤ daysInMonth y m then
    some ⟨y, m, dd⟩
  else none

/-! ## Decimal digit rendering (`str(n)`, `%d`-style zero padding) -/

/-- Decimal digits of `n`, most significant first, as values `0 … 9`.
Fuel-based so that it reduces in the kernel; `natDigits` supplies fuel `n`,
which always suffices since the argument drops by a factor of ten. -/
def natDigitsAux : Nat → Nat → List Nat
  | 0, n => [n % 10]
  | fuel + 1, n => if n < 10 then [n] else natDigitsAux fuel (n / 10) ++ [n % 10]

/-- Decimal digits of `n` (value list, most significant first). -/
def natDigits (n : Nat) : List Nat :=
  natDigitsAux n n

/-- Left-pad a digit-value list with zeros to width `k`. -/
def padZeros (k : Nat) (ds : List Nat) : List Nat :=
  List.replicate (k - ds.length) 0 ++ ds

/-- Digit values rendered as ASCII characters. -/
def digitsToChars (ds : List Nat) : List Char :=
  ds.map fun v => Char.ofNat (48 + v)

/-- Digit values rendered as ASCII byte values. -/
def digitsToBytes (ds : List Nat) : List Nat :=
  ds.map fun v => 48 + v

/-- `date.isoformat()` (equally `strftime("%Y-%m-%d")` for four-digit
years): `YYYY-MM-DD` as characters. -/
def isoDateChars (d : Date) : List Char :=
  digitsToChars (padZeros 4 (natDigits d.year)) ++ ['-'] ++
    digitsToChars (padZeros 2 (natDigits d.month)) ++ ['-'] ++
    digitsToChars (padZeros 2 (natDigits d.day))

/-- The same ISO rendering as raw byte values (45 is `'-'`). -/
def isoDateBytes (d : Date) : List Nat :=
  digitsToBytes (padZeros 4 (natDigits d.year)) ++ [45] ++
    digitsToBytes (padZeros 2 (natDigits d.month)) ++ [45] ++
    digitsToBytes (padZeros 2 (natDigits d.day))

/-! ## Python string helpers (`str.split`, `str.strip`, character classes) -/

/-- ASCII whitespace stripped by `str.strip()` (the texts involved are
ASCII; Unicode space code points never occur in them). -/
def isPySpace (c : Char) : Bool :=
  c = ' ' || c = '\t' || c = '\n' || c = '\x0d' || c = '\x0b' || c = '\x0c'

/-- Python `str.strip()`. -/
def stripChars (s : List Char) : List Char :=
  ((s.dropWhile isPySpace).reverse.dropWhile isPySpace).reverse

/-- The `[A-Za-z]` character class. -/
def isAlphaChar (c : Char) : Bool :=
  ('A' ≤ c && c ≤ 'Z') || ('a' ≤ c && c ≤ 'z')

/-- The `\d` character class (ASCII digits). -/
def isDigitChar (c : Char) : Bool :=
  '0' ≤ c && c ≤ '9'

/-- ASCII lower-casing, which is how CPython's `_strptime` compares
weekday and month names (it lower-cases both sides). -/
def toLowerChar (c : Char) : Char :=
  if 'A' ≤ c && c ≤ 'Z' then Char.ofNat (c.toNat + 32) else c

/-- Lower-case a whole string. -/
def lowerChars (s : List Char) : List Char :=
  s.map toLowerChar

/-- Helper for `pySplitOn`: splits `s` at every occurrence of the separator
`c0 :: sTail`, left to right and non-overlapping, exactly as
`str.split(sep)` does.  The fuel is the length of the string being split,
which each step strictly consumes, so the `0` branch is unreachable. -/
def pySplitAux (c0 : Char) (sTail : List Char) : Nat → List Char → List Char → List (List Char)
  | _, [], acc => [acc.reverse]
  | 0, s, acc => [acc.reverse ++ s]
  | fuel + 1, c :: rest, acc =>
    if (c0 :: sTail).isPrefixOf (c :: rest) then
      acc.reverse :: pySplitAux c0 sTail fuel (rest.drop sTail.length) []
    else
      pySplitAux c0 sTail fuel rest (c :: acc)

/-- Python `s.split(sep)` for a non-empty separator. -/
def pySplitOn (sep s : List Char) : List (List Char) :=
  match sep with
  | [] => [s]
  | c0 :: sTail => pySplitAux c0 sTail s.length s []

/-- Python `int(s)` restricted to the unsigned-decimal shapes the scraper
feeds it: `some` of the value when `s` is one or more ASCII digits,
`none` (a raised `ValueError`) otherwise. -/
def parsePyInt (s : List Char) : Option Nat :=
  if s ≠ [] ∧ s.all isDigitChar then
    some (s.foldl (fun acc c => acc * 10 + (c.toNat - 48)) 0)
  else none

/-! ## `label_to_date` / `date_to_label` (source lines 148-167) -/

/-- Capitalised weekday abbreviations, `strftime("%a")` order `Mon → Sun`. -/
def dowAbbrevs : List (List Char) :=
  ["Mon".toList, "Tue".toList, "Wed".toList, "Thu".toList,
   "Fri".toList, "Sat".toList, "Sun".toList]

/-- Capitalised month abbreviations, `strftime("%b")`. -/
def monthAbbrevs : List (List Char) :=
  ["Jan".toList, "Feb".toList, "Mar".toList, "Apr".toList, "May".toList,
   "Jun".toList, "Jul".toList, "Aug".toList, "Sep".toList, "Oct".toList,
   "Nov".toList, "Dec".toList]

/-- Full month names, `strftime("%B")`. -/
def monthFullNames : List (List Char) :=
  ["January".toList, "February".toList, "March".toList, "April".toList,
   "May".toList, "June".toList, "July".toList, "August".toList,
   "September".toList, "October".toList, "November".toList, "December".toList]

/-- Full weekday names, `strftime("%A")`. -/
def dowFullNames : List (List Char) :=
  ["Monday".toList, "Tuesday".toList, "Wednesday".toList, "Thursday".toList,
   "Friday".toList, "Saturday".toList, "Sunday".toList]

/-- Helper for `nameIdx`: scan with a running index. -/
def nameIdxAux (target : List Char) : List (List Char) → Nat → Option Nat
  | [], _ => none
  | n :: rest, i => if lowerChars n = target then some i else nameIdxAux target rest (i + 1)

/-- Index of `s` in `names` under case-insensitive comparison (strptime
name matching is case-insensitive); `0`-based. -/
def nameIdx (names : List (List Char)) (s : List Char) : Option Nat :=
  nameIdxAux (lowerChars s) names 0

/-- The month-name lookup performed by `label_to_date`: try the
abbreviated names (`strptime(month_name, "%b")`), then on failure the full
names (`strptime(month_name, "%B")`); the result is the 1-based month.
strptime requires the whole string to be consumed, so the comparison is
against the entire `month_name`. -/
def parseMonthName (mn : List Char) : Option Nat :=
  match nameIdx monthAbbrevs mn with
  | some i => some (i + 1)
  | none =>
    match nameIdx monthFullNames mn with
    | some i => some (i + 1)
    | none => none

/-- The month/day extraction inside `label_to_date` (source lines 150-162):
split on `", "` into exactly two parts, split the second on `" "` into
exactly two parts, parse the month name and the day integer. -/
def labelMonthDay (label : List Char) : Option (Nat × Nat) :=
  match pySplitOn [',', ' '] label with
  | [_dow, monthDay] =>
    match pySplitOn [' '] monthDay with
    | [mn, ds] =>
      match parseMonthName mn with
      | some m =>
        match parsePyInt ds with
        | some dd => some (m, dd)
        | none => none
      | none => none
    | _ => none
  | _ => none

/-- `label_to_date(label, year)` (source lines 148-163): parse the label's
month and day, then build `date(year, month, day)`; `none` models every
path on which the Python function raises. -/
def labelToDate (label : List Char) (year : Nat) : Option Date :=
  match labelMonthDay label with
  | some (m, dd) => mkValidDate year m dd
  | none => none

/-- Weekday index of a date, `0 = Monday`, as `date.weekday()` computes it
from the ordinal (`0001-01-01`, ordinal 1, is a Monday). -/
def weekdayIdx (d : Date) : Nat :=
  (d.toOrdinal + 6) % 7

/-- `date_to_label(target)` (source lines 166-167): abbreviated weekday,
abbreviated month, unpadded day. -/
def dateToLabel (d : Date) : List Char :=
  dowAbbrevs.getD (weekdayIdx d) [] ++ [',', ' '] ++
    monthAbbrevs.getD (d.month - 1) [] ++ [' '] ++
    digitsToChars (natDigits d.day)

/-! ## `normalise` (source lines 192-196) and the label regex machinery -/

/-- The narrow no-break space ` ` replaced by `_parse_dates_from_label`. -/
def narrowNbsp : Char := Char.ofNat 0x202f

/-- The no-break space `\xa0` replaced by `normalise`. -/
def nbsp : Char := Char.ofNat 0xa0

/-- `re.sub(r"([AP]M)(\+\d)", r"\1 \2", text)`: insert a space between a
meridiem marker and an immediately following day-offset suffix; scanning
is left-to-right non-overlapping, resuming after each match, exactly as
`re.sub` does. -/
def insertAmPmSpaceAux : Nat → List Char → List Char
  | _, [] => []
  | 0, s => s
  | fuel + 1, a :: rest =>
    match rest with
    | 'M' :: '+' :: d :: rest2 =>
      if (a = 'A' ∨ a = 'P') ∧ isDigitChar d then
        a :: 'M' :: ' ' :: '+' :: d :: insertAmPmSpaceAux fuel rest2
      else
        a :: insertAmPmSpaceAux fuel rest
    | _ => a :: insertAmPmSpaceAux fuel rest

/-- The meridiem/offset rewrite; each step consumes at least one input
character, so fuel equal to the input length is exact and the exhaustion
branch is unreachable. -/
def insertAmPmSpace (s : List Char) : List Char :=
  insertAmPmSpaceAux s.length s

/-- `normalise(text)` (source lines 192-196).  NFKC normalisation is
modelled as the identity (the identity on all ASCII text); then `\xa0`
is replaced by a space, the result stripped, and the meridiem/offset
space inserted. -/
def normaliseText (s : List Char) : List Char :=
  insertAmPmSpace (stripChars ((s.map fun c => if c = nbsp then ' ' else c)))

/-- One attempt of `re.search(r"on ([A-Za-z]+, [A-Za-z]+ \d{1,2})", ·)` at
the head of `s`, returning the captured group.  The pattern's greedy
`[A-Za-z]+` runs never backtrack usefully (the following literals `,` and
a space are not letters), so maximal munch is exact; `\d{1,2}` greedily
takes a second digit when present. -/
def tryOnDateAt (s : List Char) : Option (List Char) :=
  if ['o', 'n', ' '].isPrefixOf s then
    let t := s.drop 3
    let w := t.takeWhile isAlphaChar
    let t1 := t.dropWhile isAlphaChar
    if w ≠ [] ∧ [',', ' '].isPrefixOf t1 then
      let t2 := t1.drop 2
      let mn := t2.takeWhile isAlphaChar
      let t3 := t2.dropWhile isAlphaChar
      if mn ≠ [] ∧ [' '].isPrefixOf t3 then
        match t3.drop 1 with
        | d1 :: rest2 =>
          if isDigitChar d1 then
            match rest2 with
            | d2 :: _ =>
              if isDigitChar d2 then
                some (w ++ [',', ' '] ++ mn ++ [' '] ++ [d1, d2])
              else some (w ++ [',', ' '] ++ mn ++ [' '] ++ [d1])
            | [] => some (w ++ [',', ' '] ++ mn ++ [' '] ++ [d1])
          else none
        | [] => none
      else none
    else none
  else none

/-- `re.search` scanning for the first successful match position. -/
def findOnDate : List Char → Option (List Char)
  | [] => none
  | c :: rest =>
    match tryOnDateAt (c :: rest) with
    | some cap => some cap
    | none => findOnDate rest

/-- One `strptime` attempt of `_parse_date_fragment` against a format
`"<dow>, <month> <day> <year>"` with the given weekday/month name tables
(source line 221 tries the four full/abbreviated combinations).  The
matched text is the regex capture, so it has the shape
`letters ++ ", " ++ letters ++ " " ++ 1-2 digits`; strptime requires the
weekday and month runs to be exactly a table name (case-insensitively),
the day to denote `1 … 31`, the year to render as exactly four digits
(`%Y` matches four), and the resulting `date(year, month, day)` to be
constructible. -/
def tryFormatDM (dows months : List (List Char)) (txt : List Char) (y : Nat) : Option Date :=
  let dw := txt.takeWhile isAlphaChar
  let r1 := txt.dropWhile isAlphaChar
  if (nameIdx dows dw).isSome ∧ [',', ' '].isPrefixOf r1 then
    let r2 := r1.drop 2
    let mn := r2.takeWhile isAlphaChar
    let r3 := r2.dropWhile isAlphaChar
    match nameIdx months mn with
    | some mIdx =>
      if [' '].isPrefixOf r3 then
        let ds := (r3.drop 1).takeWhile isDigitChar
        let r4 := (r3.drop 1).dropWhile isDigitChar
        match parsePyInt ds with
        | some dd =>
          if r4 = [] ∧ ds.length ≤ 2 ∧ 1 ≤ dd ∧ dd ≤ 31 ∧ 1000 ≤ y ∧ y ≤ 9999 then
            mkValidDate y (mIdx + 1) dd
          else none
        | none => none
      else none
    | none => none
  else none

/-- `_parse_date_fragment(fragment, travel_year)` (source lines 216-226):
find the `"on <dow>, <month> <day>"` pattern, then try the four
weekday/month format combinations in source order; the first success
wins.  `none` models the empty-string result. -/
def parseDateFragment (fragment : List Char) (y : Nat) : Option Date :=
  match findOnDate fragment with
  | none => none
  | some cap =>
    let txt := stripChars cap
    match tryFormatDM dowFullNames monthFullNames txt y with
    | some d => some d
    | none =>
      match tryFormatDM dowFullNames monthAbbrevs txt y with
      | some d => some d
      | none =>
        match tryFormatDM dowAbbrevs monthFullNames txt y with
        | some d => some d
        | none => tryFormatDM dowAbbrevs monthAbbrevs txt y

/-! ## `_parse_dates_from_label` (source lines 229-246) -/

/-- The separator `" and arrives "`. -/
def andArrivesSep : List Char := " and arrives ".toList

/-- Helper scanning for the first occurrence of `" and arrives "`. -/
def splitArrivesAux : List Char → List Char → Option (List Char × List Char)
  | _, [] => none
  | acc, c :: rest =>
    if andArrivesSep.isPrefixOf (c :: rest) then
      some (acc.reverse, (c :: rest).drop andArrivesSep.length)
    else
      splitArrivesAux (c :: acc) rest

/-- `label.split(" and arrives ", 1)` guarded by the `in` test (source
lines 231-234): the fragment pair, with an empty arrival fragment when
the separator is absent. -/
def splitArrives (l : List Char) : List Char × List Char :=
  match splitArrivesAux [] l with
  | some p => p
  | none => (l, [])

/-- The `while arr_dt < dep_dt: arr_dt += timedelta(days=1)` loop of
`_parse_dates_from_label` (source lines 242-243), with the ordinal gap as
structural fuel; `rollover_eq_of_valid` below shows the fuel is exact for
valid dates, so the translation agrees with the unbounded Python loop. -/
def rolloverAux (dep : Date) : Nat → Date → Date
  | 0, arr => arr
  | k + 1, arr => if arr.ltb dep then rolloverAux dep k arr.nextDay else arr

/-- The arrival-date rollover correction. -/
def rolloverArrival (dep arr : Date) : Date :=
  rolloverAux dep (dep.toOrdinal - arr.toOrdinal) arr

/-- `_parse_dates_from_label(label, travel_year)` (source lines 229-246).
ISO date strings are carried as `Option Date` (`none` is the empty
string; `datetime.fromisoformat ∘ isoformat` is the identity, so the
string round-trip inside the source is dropped). -/
def parseDatesFromLabel (label : List Char) (y : Nat) : Option Date × Option Date :=
  let l := label.map fun c => if c = narrowNbsp then ' ' else c
  let p := splitArrives l
  let dep := parseDateFragment p.1 y
  let arr := parseDateFragment p.2 y
  match dep, arr with
  | some d, some a => (some d, some (rolloverArrival d a))
  | _, _ => (dep, arr)

/-! ## `extract_times` (source lines 249-276) -/

/-- `re.search(r"\+(\d)", ·)`: first `+` immediately followed by a digit;
returns that digit's value. -/
def findPlusDigit : List Char → Option Nat
  | [] => none
  | '+' :: c :: rest =>
    if isDigitChar c then some (c.toNat - 48) else findPlusDigit (c :: rest)
  | _ :: rest => findPlusDigit rest

/-- The card data `extract_times` reads: the texts of the
`span[role='text']` time elements and the `aria-label` of the date span
(`none` when the element is missing, and `get_attribute` may also give an
empty string). -/
structure TimesCard where
  timeTexts : List (List Char)
  ariaLabel : Option (List Char)

/-- The dictionary `extract_times` returns; the two date fields are ISO
strings-or-empty, carried as `Option Date`. -/
structure TimesResult where
  departure : List Char
  arrival : List Char
  departureDate : Option Date
  arrivalDate : Option Date
deriving DecidableEq

/-- `normalise(times[0].text) if times else ""` (source line 251). -/
def departText (card : TimesCard) : List Char :=
  match card.timeTexts with
  | t0 :: _ => normaliseText t0
  | [] => []

/-- `normalise(times[1].text) if len(times) > 1 else ""` (source line 252). -/
def arriveText (card : TimesCard) : List Char :=
  match card.timeTexts with
  | _ :: t1 :: _ => normaliseText t1
  | _ => []

/-- The `aria-label` value with the missing-element and `None` cases folded
to the empty string (source lines 256-260). -/
def cardLabel (card : TimesCard) : List Char :=
  match card.ariaLabel with
  | some l => l
  | none => []

/-- `extract_times(container, travel_year)` (source lines 249-276) over the
texts read from the card. -/
def extractTimes (card : TimesCard) (y : Nat) : TimesResult :=
  let parsed :=
    if cardLabel card ≠ [] then parseDatesFromLabel (normaliseText (cardLabel card)) y
    else (none, none)
  let arrDate :=
    match parsed.1, parsed.2 with
    | some depD, none =>
      match findPlusDigit (arriveText card) with
      | some n => some (depD.addDays n)
      | none => none
    | _, a => a
  { departure := departText card, arrival := arriveText card,
    departureDate := parsed.1, arrivalDate := arrDate }

/-- Bounded check for the label round-trip: over every weekday index, month
index and day `1 … 31`, parsing the generated label recovers the month and
day.  The year does not occur in a label, so this finite check covers the
whole grammar. -/
def labelRoundTripCheck : Bool :=
  (List.range 7).all fun w =>
    (List.range 12).all fun mi =>
      (List.range 31).all fun di =>
        decide (labelMonthDay
          (dowAbbrevs.getD w [] ++ [',', ' '] ++ monthAbbrevs.getD mi [] ++ [' '] ++
            digitsToChars (natDigits (di + 1))) = some (mi + 1, di + 1))

/-! ## `normalise_output_rows` (source lines 281-314) -/

/-- A raw row as accumulated by `gather_cards`: every field is an explicit
string (possibly empty) except the stop count, which may be `None`. -/
structure RawRow where
  airlines : List Char
  price : List Char
  departure : List Char
  departureDate : List Char
  arrival : List Char
  arrivalDate : List Char
  duration : List Char
  stopsText : List Char
  stopsCount : Option Nat
deriving DecidableEq

/-- The final output schema. -/
structure FinalRow where
  maskapai : List Char
  tanggal : List Char
  waktuBerangkat : List Char
  waktuDatang : List Char
  durasi : List Char
  transit : List Char
  hargaTiket : List Char
deriving DecidableEq

/-- The per-row body of `normalise_output_rows` (source lines 283-313);
Python string truthiness is emptiness testing. -/
def normaliseRow (row : RawRow) (targetDate : Date) : FinalRow :=
  let departureDate := if row.departureDate = [] then isoDateChars targetDate else row.departureDate
  let arrivalDisplay :=
    if row.arrivalDate ≠ [] then
      if row.arrival ≠ [] then
        row.arrival ++ [' ', '('] ++ row.arrivalDate ++ [')']
      else row.arrivalDate
    else row.arrival
  let transit :=
    if row.stopsText ≠ [] then row.stopsText
    else if row.stopsCount = some 0 then "Nonstop".toList
    else "Unknown".toList
  { maskapai := row.airlines
    tanggal := departureDate
    waktuBerangkat := row.departure
    waktuDatang := arrivalDisplay
    durasi := row.duration
    transit := transit
    hargaTiket := row.price }

/-- `normalise_output_rows(raw_rows, target_date)`. -/
def normaliseOutputRows (rows : List RawRow) (t : Date) : List FinalRow :=
  rows.map fun r => normaliseRow r t

/-! ## `gather_cards` de-duplication (source lines 355-396) -/

/-- A rendered result card as the harvest loop sees it: its
`data-id` attribute (`none` when absent) and its extracted payload.  The
payload stands for the `RawFlightRecord` built from the card. -/
structure Card where
  cardId : Option (List Char)
  payload : Nat
deriving DecidableEq

/-- The card-processing fold of `gather_cards` over the sequence of
enumerated cards: skip a card whose identifier is in `seen`, otherwise
append its record, add its identifier to `seen` (including an absent
identifier), and stop when `max_results` is reached (`0` = unbounded).
Stale-element skips are not modelled: a skipped card contributes nothing
and adds nothing to `seen`, just like a card never enumerated. -/
def harvestAux (maxResults : Nat) : List Card → List (Option (List Char)) → List Card → List Card
  | [], _, acc => acc
  | c :: rest, seen, acc =>
    if c.cardId ∈ seen then harvestAux maxResults rest seen acc
    else
      let acc2 := acc ++ [c]
      if maxResults ≠ 0 ∧ maxResults ≤ acc2.length then acc2
      else harvestAux maxResults rest (c.cardId :: seen) acc2

/-- The records one call to `gather_cards` produces from the sequence of
cards it enumerates. -/
def harvest (maxResults : Nat) (cards : List Card) : List Card :=
  harvestAux maxResults cards [] []

/-! ## `gather_cards` pagination loop (source lines 365-425) -/

/-- The live page as an oracle indexed by loop iteration: the card count
rendered at the top of iteration `i`, whether a visible "show more"
control is found (and clicked) during iteration `i`, and the card count
re-read after the extra viewport scroll at the end of iteration `i`. -/
structure PageEnv where
  topCount : Nat → Nat
  showMore : Nat → Bool
  recount : Nat → Nat

/-- Whether the loop's `break` fires in iteration `i`: no "show more"
control was clicked (otherwise the iteration ends in `continue`) and the
re-read card count did not exceed the count from the top of the
iteration (source lines 416-423). -/
def breaksAt (env : PageEnv) (i : Nat) : Bool :=
  !env.showMore i && decide (env.recount i ≤ env.topCount i)

/-- `stillRunning env n` holds iff the `while True` loop of
`gather_cards` is still running after `n` completed iterations, ignoring
the `max_results` early return (which can only stop the loop sooner). -/
def stillRunning (env : PageEnv) : Nat → Bool
  | 0 => true
  | n + 1 => stillRunning env n && !breaksAt env n

/-! ## base64url (`base64.urlsafe_b64encode/b64decode`) over byte lists -/

/-- The urlsafe base64 alphabet. -/
def b64Alphabet : List Char :=
  "ABCDEFGHIJKLMNOPQRSTUVWXYZabcdefghijklmnopqrstuvwxyz0123456789-_".toList

/-- Character for a sextet value. -/
def charOfSextet (n : Nat) : Char :=
  b64Alphabet.getD n 'A'

/-- Position of a character in the alphabet, scanning with an index. -/
def lookupIdx (c : Char) : List Char → Nat → Option Nat
  | [], _ => none
  | a :: rest, i => if a = c then some i else lookupIdx c rest (i + 1)

/-- Sextet value of an alphabet character (`none` off-alphabet). -/
def sextetOfChar (c : Char) : Option Nat :=
  lookupIdx c b64Alphabet 0

/-- The unpadded character stream of `base64.urlsafe_b64encode`, three
bytes at a time. -/
def b64core : List Nat → List Char
  | [] => []
  | [a] => [charOfSextet (a / 4), charOfSextet (a % 4 * 16)]
  | [a, b] => [charOfSextet (a / 4), charOfSextet (a % 4 * 16 + b / 16), charOfSextet (b % 16 * 4)]
  | a :: b :: c :: rest =>
    charOfSextet (a / 4) :: charOfSextet (a % 4 * 16 + b / 16) ::
      charOfSextet (b % 16 * 4 + c / 64) :: charOfSextet (c % 64) :: b64core rest

/-- Number of `=` padding characters the encoder appends. -/
def b64padLen : List Nat → Nat
  | [] => 0
  | [_] => 2
  | [_, _] => 1
  | _ :: _ :: _ :: rest => b64padLen rest

/-- `base64.urlsafe_b64encode` (bytes to text, with padding). -/
def b64encode (bs : List Nat) : List Char :=
  b64core bs ++ List.replicate (b64padLen bs) '='

/-- `base64.urlsafe_b64decode` on a correctly padded text, four characters
at a time; `none` models a raised `binascii.Error`/`ValueError` (bad
length, off-alphabet character, misplaced padding). -/
def b64decode : List Char → Option (List Nat)
  | [] => some []
  | c1 :: c2 :: c3 :: c4 :: rest =>
    if c3 = '=' ∧ c4 = '=' ∧ rest = [] then
      match sextetOfChar c1, sextetOfChar c2 with
      | some s1, some s2 => some [s1 * 4 + s2 / 16]
      | _, _ => none
    else if c4 = '=' ∧ rest = [] then
      match sextetOfChar c1, sextetOfChar c2, sextetOfChar c3 with
      | some s1, some s2, some s3 => some [s1 * 4 + s2 / 16, s2 % 16 * 16 + s3 / 4]
      | _, _, _ => none
    else
      match sextetOfChar c1, sextetOfChar c2, sextetOfChar c3, sextetOfChar c4, b64decode rest with
      | some s1, some s2, some s3, some s4, some tail =>
        some ((s1 * 4 + s2 / 16) :: (s2 % 16 * 16 + s3 / 4) :: (s3 % 4 * 64 + s4) :: tail)
      | _, _, _, _, _ => none
  | _ => none

/-- `tfs_value.rstrip("=")` (source line 117 strips, line 105 re-pads). -/
def rstripEq (s : List Char) : List Char :=
  (s.reverse.dropWhile fun c => c = '=').reverse

/-- `"=" * (-len(tfs_value) % 4)` (source line 105). -/
def b64pad (s : List Char) : List Char :=
  List.replicate ((4 - s.length % 4) % 4) '='

/-! ## `build_url_for_date` (source lines 96-121) -/

/-- The byte class test `\d` on byte values. -/
def isDigitByte (b : Nat) : Bool :=
  48 ≤ b && b ≤ 57

/-- Whether the byte regex `\d{4}-\d{2}-\d{2}` matches at offset `i`
(45 is `'-'`); out-of-range reads default to 0, which is in no class,
and the explicit bound keeps the match inside the blob. -/
def matchesDateAt (bs : List Nat) (i : Nat) : Bool :=
  decide (i + 10 ≤ bs.length) &&
    isDigitByte (bs.getD i 0) && isDigitByte (bs.getD (i + 1) 0) &&
    isDigitByte (bs.getD (i + 2) 0) && isDigitByte (bs.getD (i + 3) 0) &&
    (bs.getD (i + 4) 0 == 45) &&
    isDigitByte (bs.getD (i + 5) 0) && isDigitByte (bs.getD (i + 6) 0) &&
    (bs.getD (i + 7) 0 == 45) &&
    isDigitByte (bs.getD (i + 8) 0) && isDigitByte (bs.getD (i + 9) 0)

/-- Scan for the leftmost match position, as `re.search` does. -/
def fdmAux (bs : List Nat) : Nat → Nat → Option Nat
  | 0, _ => none
  | k + 1, i => if matchesDateAt bs i then some i else fdmAux bs k (i + 1)

/-- `re.search(rb"\d{4}-\d{2}-\d{2}", decoded)`: the start offset of the
leftmost date-shaped substring (its span is that offset plus ten). -/
def findDateMatch (bs : List Nat) : Option Nat :=
  fdmAux bs bs.length 0

/-- A parsed search URL, at the granularity `build_url_for_date` works
with: the query as `urllib.parse.parse_qs` produces it (insertion-ordered
keys, each with its value list) and the remaining URL components, which
the function passes through untouched. -/
structure UrlModel where
  beforeQuery : List Char
  query : List (List Char × List (List Char))
  fragment : List Char
deriving DecidableEq

/-- Value list of a key in the parsed query. -/
def lookupQ : List (List Char × List (List Char)) → List Char → Option (List (List Char))
  | [], _ => none
  | (k, vs) :: rest, key => if k = key then some vs else lookupQ rest key

/-- `query["tfs"] = [new_tfs]`: replace the (unique) entry's value list. -/
def setQ : List (List Char × List (List Char)) → List Char → List (List Char) →
    List (List Char × List (List Char))
  | [], _, _ => []
  | (k, vs) :: rest, key, newVs =>
    if k = key then (k, newVs) :: rest else (k, vs) :: setQ rest key newVs

/-- The key `"tfs"`. -/
def tfsKey : List Char := "tfs".toList

/-- `query.get("tfs", [None])[0]` with Python truthiness folded in:
`none` when the parameter is absent (or its value list is empty, which
`parse_qs` never produces). -/
def getTfsVal (u : UrlModel) : Option (List Char) :=
  match lookupQ u.query tfsKey with
  | some (v :: _) => some v
  | _ => none

/-- `build_url_for_date(base_url, target_date)` (source lines 96-121).
Every fail-soft path returns the input URL itself. -/
def buildUrlForDate (u : UrlModel) (d : Date) : UrlModel :=
  match getTfsVal u with
  | none => u
  | some tfs =>
    if tfs = [] then u
    else
      match b64decode (tfs ++ b64pad tfs) with
      | none => u
      | some decoded =>
        match findDateMatch decoded with
        | none => u
        | some s =>
          let newDateBytes := isoDateBytes d
          let updated := decoded.take s ++ newDateBytes ++ decoded.drop (s + 10)
          let newTfs := rstripEq (b64encode updated)
          { u with query := setQ u.query tfsKey [newTfs] }

/-- Decode the (repadded) `tfs` parameter of a URL; the composition the
spec's round-trip property speaks about. -/
def decodeTfsOf (u : UrlModel) : Option (List Nat) :=
  match getTfsVal u with
  | some t => b64decode (t ++ b64pad t)
  | none => none

/-- Whether the rewrite applies to `u`: the `tfs` parameter is present and
non-empty, decodes, and the decoded bytes contain a date-shaped
substring.  This is exactly the guard structure of `build_url_for_date`;
the claimed fail-soft cases are its negation. -/
def tfsRewriteApplies (u : UrlModel) : Bool :=
  match getTfsVal u with
  | none => false
  | some tfs =>
    if tfs = [] then false
    else
      match b64decode (tfs ++ b64pad tfs) with
      | none => false
      | some decoded => (findDateMatch decoded).isSome

/-! ## Calendar lemmas -/

theorem daysInMonth_pos (y m : Nat) : 1 ≤ daysInMonth y m := by
  unfold daysInMonth
  split
  · split <;> omega
  · split <;> omega

theorem daysInMonth_le_31 (y m : Nat) : daysInMonth y m ≤ 31 := by
  unfold daysInMonth
  split
  · split <;> omega
  · split <;> omega

theorem daysBeforeMonth_succ (y m : Nat) (h : 1 ≤ m) :
    daysBeforeMonth y (m + 1) = daysBeforeMonth y m + daysInMonth y m := by
  simp only [daysBeforeMonth]
  rw [if_neg (by omega)]

theorem daysBeforeMonth_mono (y : Nat) {m n : Nat} (h : m ≤ n) :
    daysBeforeMonth y m ≤ daysBeforeMonth y n := by
  induction n with
  | zero => simp_all
  | succ k ih =>
    rcases Nat.lt_or_ge m (k + 1) with hm | hm
    · have := ih (by omega)
      simp only [daysBeforeMonth]
      split <;> omega
    · have : m = k + 1 := by omega
      simp [this]

theorem isLeap_iff (y : Nat) :
    isLeap y = true ↔ (y % 4 = 0 ∧ y % 100 ≠ 0) ∨ y % 400 = 0 := by
  simp [isLeap, Bool.or_eq_true, Bool.and_eq_true, beq_iff_eq, bne_iff_ne]

theorem daysBeforeMonth_full (y : Nat) :
    daysBeforeMonth y 13 = if isLeap y then 366 else 365 := by
  simp only [show (13 : Nat) = 12 + 1 from rfl, daysBeforeMonth, daysInMonth]
  norm_num
  split <;> omega

theorem daysBeforeYear_succ (y : Nat) (h : 1 ≤ y) :
    daysBeforeYear (y + 1) = daysBeforeYear y + (if isLeap y then 366 else 365) := by
  unfold daysBeforeYear leapsBefore
  have h4 := Nat.succ_div (y - 1) 4
  have h100 := Nat.succ_div (y - 1) 100
  have h400 := Nat.succ_div (y - 1) 400
  rw [Nat.sub_add_cancel h] at h4 h100 h400
  have hli := isLeap_iff y
  split <;> rename_i hl
  · rw [hli] at hl
    simp only [Nat.add_sub_cancel]
    split_ifs at h4 h100 h400 <;> omega
  · have hl2 : ¬((y % 4 = 0 ∧ y % 100 ≠ 0) ∨ y % 400 = 0) := by
      rw [← hli]; simp [hl]
    simp only [Nat.add_sub_cancel]
    split_ifs at h4 h100 h400 <;> omega

theorem daysBeforeYear_mono {y z : Nat} (h : y ≤ z) :
    daysBeforeYear y ≤ daysBeforeYear z := by
  induction z with
  | zero => simp_all
  | succ k ih =>
    rcases Nat.lt_or_ge y (k + 1) with hy | hy
    · rcases Nat.eq_zero_or_pos k with hk | hk
      · have : y = 0 := by omega
        subst this hk
        simp [daysBeforeYear, leapsBefore]
      · have h1 := ih (by omega)
        have h2 := daysBeforeYear_succ k hk
        split_ifs at h2 <;> omega
    · have : y = k + 1 := by omega
      simp [this]

theorem toOrdinal_in_year (d : Date) (hv : d.Valid) :
    daysBeforeYear d.year < d.toOrdinal ∧
      d.toOrdinal ≤ daysBeforeYear d.year + (if isLeap d.year then 366 else 365) := by
  obtain ⟨hy, hm1, hm2, hd1, hd2⟩ := hv
  unfold Date.toOrdinal
  constructor
  · omega
  · have h1 : daysBeforeMonth d.year d.month + d.day ≤ daysBeforeMonth d.year (d.month + 1) := by
      rw [daysBeforeMonth_succ _ _ hm1]; omega
    have h2 : daysBeforeMonth d.year (d.month + 1) ≤ daysBeforeMonth d.year 13 :=
      daysBeforeMonth_mono _ (by omega)
    have h3 := daysBeforeMonth_full d.year
    split_ifs at h3 ⊢ <;> omega

theorem toOrdinal_lt_of_ltb {a b : Date} (ha : a.Valid) (hb : b.Valid)
    (h : a.ltb b = true) : a.toOrdinal < b.toOrdinal := by
  obtain ⟨hay, ham1, ham2, had1, had2⟩ := ha
  obtain ⟨hby, hbm1, hbm2, hbd1, hbd2⟩ := hb
  simp only [Date.ltb, Bool.or_eq_true, Bool.and_eq_true, decide_eq_true_eq,
    beq_iff_eq] at h
  rcases h with h | ⟨hy, h⟩
  · have h1 : a.toOrdinal ≤ daysBeforeYear a.year + (if isLeap a.year then 366 else 365) :=
      (toOrdinal_in_year a ⟨hay, ham1, ham2, had1, had2⟩).2
    have h2 : daysBeforeYear a.year + (if isLeap a.year then 366 else 365) =
        daysBeforeYear (a.year + 1) := (daysBeforeYear_succ a.year hay).symm
    have h3 : daysBeforeYear (a.year + 1) ≤ daysBeforeYear b.year :=
      daysBeforeYear_mono (by omega)
    have h4 : daysBeforeYear b.year < b.toOrdinal :=
      (toOrdinal_in_year b ⟨hby, hbm1, hbm2, hbd1, hbd2⟩).1
    omega
  rcases h with h | ⟨hm, h⟩
  · have h1 : daysBeforeMonth a.year a.month + a.day ≤ daysBeforeMonth a.year (a.month + 1) := by
      rw [daysBeforeMonth_succ _ _ ham1]; omega
    have h2 : daysBeforeMonth a.year (a.month + 1) ≤ daysBeforeMonth a.year b.month :=
      daysBeforeMonth_mono _ (by omega)
    unfold Date.toOrdinal
    rw [hy] at h1 h2 ⊢
    omega
  · unfold Date.toOrdinal
    rw [hy, hm]
    omega

theorem Date.ltb_total (a b : Date) : a = b ∨ a.ltb b = true ∨ b.ltb a = true := by
  obtain ⟨ay, am, ad⟩ := a
  obtain ⟨by', bm, bd⟩ := b
  simp only [Date.ltb, Bool.or_eq_true, Bool.and_eq_true, decide_eq_true_eq,
    beq_iff_eq, Date.mk.injEq]
  omega

theorem valid_nextDay {d : Date} (h : d.Valid) : d.nextDay.Valid := by
  obtain ⟨hy, hm1, hm2, hd1, hd2⟩ := h
  have hp1 := daysInMonth_pos d.year (d.month + 1)
  have hp2 := daysInMonth_pos (d.year + 1) 1
  unfold Date.nextDay
  split_ifs with h1 h2 <;> simp only [Date.Valid] <;> omega

theorem toOrdinal_nextDay {d : Date} (h : d.Valid) :
    d.nextDay.toOrdinal = d.toOrdinal + 1 := by
  obtain ⟨hy, hm1, hm2, hd1, hd2⟩ := h
  unfold Date.nextDay
  split_ifs with h1 h2
  · simp only [Date.toOrdinal]; omega
  · have hday : d.day = daysInMonth d.year d.month := by omega
    simp only [Date.toOrdinal]
    rw [daysBeforeMonth_succ _ _ hm1]
    omega
  · have hm12 : d.month = 12 := by omega
    have hday : d.day = daysInMonth d.year 12 := by rw [← hm12]; omega
    have hd31 : daysInMonth d.year 12 = 31 := by simp [daysInMonth]
    simp only [Date.toOrdinal]
    have hsucc := daysBeforeYear_succ d.year hy
    have hfull := daysBeforeMonth_full d.year
    have h13 : daysBeforeMonth d.year 13 =
        daysBeforeMonth d.year 12 + daysInMonth d.year 12 :=
      daysBeforeMonth_succ _ _ (by omega)
    have h1' : daysBeforeMonth (d.year + 1) 1 = 0 := by simp [daysBeforeMonth]
    rw [hm12, h1', hsucc]
    split_ifs at hfull ⊢ <;> omega

theorem Date.ltb_irrefl (d : Date) : d.ltb d = false := by
  simp [Date.ltb]

theorem rolloverAux_eq (dep : Date) (hdep : dep.Valid) :
    ∀ (k : Nat) (arr : Date), arr.Valid → dep.toOrdinal ≤ arr.toOrdinal + k →
      rolloverAux dep k arr = if arr.ltb dep then dep else arr := by
  intro k
  induction k with
  | zero =>
    intro arr ha hk
    simp only [rolloverAux]
    cases h : arr.ltb dep
    · simp
    · exact absurd (toOrdinal_lt_of_ltb ha hdep h) (by omega)
  | succ k ih =>
    intro arr ha hk
    simp only [rolloverAux]
    cases h : arr.ltb dep
    · simp
    · rw [if_pos rfl, if_pos rfl]
      have hord := toOrdinal_lt_of_ltb ha hdep h
      have ha2 := valid_nextDay ha
      have hn := toOrdinal_nextDay ha
      rw [ih arr.nextDay ha2 (by omega)]
      rcases Date.ltb_total arr.nextDay dep with he | hlt | hgt
      · simp [he, Date.ltb_irrefl]
      · simp [hlt]
      · exact absurd (toOrdinal_lt_of_ltb hdep ha2 hgt) (by omega)

/-- The rollover loop of `_parse_dates_from_label` lands exactly on the
departure date when the parsed arrival lies before it, and leaves the
arrival untouched otherwise. -/
theorem rolloverArrival_eq {dep arr : Date} (hdep : dep.Valid) (harr : arr.Valid) :
    rolloverArrival dep arr = if arr.ltb dep then dep else arr := by
  unfold rolloverArrival
  exact rolloverAux_eq dep hdep _ arr harr (by omega)

/-! ## Digit-rendering lemmas -/

theorem natDigitsAux_length_le : ∀ (fuel n k : Nat), n < 10 ^ k → 1 ≤ k →
    (natDigitsAux fuel n).length ≤ k := by
  intro fuel
  induction fuel with
  | zero =>
    intro n k _ hk
    unfold natDigitsAux
    simpa using hk
  | succ f ih =>
    intro n k hn hk
    unfold natDigitsAux
    by_cases h10 : n < 10
    · rw [if_pos h10]
      simpa using hk
    · rw [if_neg h10]
      have hk2 : 2 ≤ k := by
        rcases Nat.lt_or_ge k 2 with hk1 | hk1
        · have : k = 1 := by omega
          subst this
          simp at hn
          omega
        · exact hk1
      have hpow : 10 ^ (k - 1) * 10 = 10 ^ k := by
        rw [← pow_succ]
        congr 1
        omega
      have hdiv : n / 10 < 10 ^ (k - 1) := by
        rw [← hpow] at hn
        omega
      have := ih (n / 10) (k - 1) hdiv (by omega)
      simp only [List.length_append, List.length_cons, List.length_nil]
      omega

theorem natDigits_length_le {k n : Nat} (hn : n < 10 ^ k) (hk : 1 ≤ k) :
    (natDigits n).length ≤ k :=
  natDigitsAux_length_le n n k hn hk

theorem natDigitsAux_lt_ten : ∀ (fuel n : Nat), ∀ v ∈ natDigitsAux fuel n, v < 10 := by
  intro fuel
  induction fuel with
  | zero =>
    intro n v hv
    unfold natDigitsAux at hv
    simp at hv
    omega
  | succ f ih =>
    intro n v hv
    unfold natDigitsAux at hv
    by_cases h10 : n < 10
    · rw [if_pos h10] at hv
      simp at hv
      omega
    · rw [if_neg h10] at hv
      simp only [List.mem_append, List.mem_cons, List.not_mem_nil, or_false] at hv
      rcases hv with hv | hv
      · exact ih _ _ hv
      · omega

theorem natDigitsAux_ne_nil (fuel n : Nat) : natDigitsAux fuel n ≠ [] := by
  cases fuel with
  | zero => simp [natDigitsAux]
  | succ f =>
    unfold natDigitsAux
    by_cases h10 : n < 10
    · rw [if_pos h10]; simp
    · rw [if_neg h10]; simp

theorem padZeros_length {k : Nat} {ds : List Nat} (h : ds.length ≤ k) :
    (padZeros k ds).length = k := by
  simp only [padZeros, List.length_append, List.length_replicate]
  omega

theorem padZeros_lt_ten {k : Nat} {ds : List Nat} (h : ∀ v ∈ ds, v < 10) :
    ∀ v ∈ padZeros k ds, v < 10 := by
  intro v hv
  simp only [padZeros, List.mem_append, List.mem_replicate] at hv
  rcases hv with hv | hv
  · omega
  · exact h v hv

theorem digitsToBytes_length (ds : List Nat) : (digitsToBytes ds).length = ds.length := by
  simp [digitsToBytes]

theorem isoDateBytes_length {d : Date} (hy : d.year ≤ 9999) (hm : d.month ≤ 99)
    (hd : d.day ≤ 99) : (isoDateBytes d).length = 10 := by
  have h1 : (natDigits d.year).length ≤ 4 :=
    natDigits_length_le (by norm_num; omega) (by omega)
  have h2 : (natDigits d.month).length ≤ 2 :=
    natDigits_length_le (by norm_num; omega) (by omega)
  have h3 : (natDigits d.day).length ≤ 2 :=
    natDigits_length_le (by norm_num; omega) (by omega)
  simp only [isoDateBytes, List.length_append, digitsToBytes_length,
    padZeros_length h1, padZeros_length h2, padZeros_length h3, List.length_cons,
    List.length_nil]

theorem digitsToBytes_mem_lt {ds : List Nat} (h : ∀ v ∈ ds, v < 10) :
    ∀ b ∈ digitsToBytes ds, 48 ≤ b ∧ b ≤ 57 := by
  intro b hb
  simp only [digitsToBytes, List.mem_map] at hb
  obtain ⟨v, hv, rfl⟩ := hb
  have := h v hv
  omega

theorem isoDateBytes_bytes_lt {d : Date} : ∀ b ∈ isoDateBytes d, b < 256 := by
  intro b hb
  have hy := digitsToBytes_mem_lt (padZeros_lt_ten (k := 4) (natDigitsAux_lt_ten d.year d.year))
  have hm := digitsToBytes_mem_lt (padZeros_lt_ten (k := 2) (natDigitsAux_lt_ten d.month d.month))
  have hd := digitsToBytes_mem_lt (padZeros_lt_ten (k := 2) (natDigitsAux_lt_ten d.day d.day))
  simp only [isoDateBytes, List.mem_append, List.mem_cons, List.not_mem_nil,
    or_false] at hb
  rcases hb with (((hb | hb) | hb) | hb) | hb
  · have := hy b hb; omega
  · omega
  · have := hm b hb; omega
  · omega
  · have := hd b hb; omega

/-! ## Validity of parsed dates -/

theorem mkValidDate_valid {y m dd : Nat} {d : Date} (h : mkValidDate y m dd = some d) :
    d.Valid := by
  unfold mkValidDate at h
  split at h
  · cases h
    rename_i hc
    exact ⟨hc.1, hc.2.2.1, hc.2.2.2.1, hc.2.2.2.2.1, hc.2.2.2.2.2⟩
  · cases h

theorem tryFormatDM_valid {dows months : List (List Char)} {txt : List Char} {y : Nat}
    {d : Date} (h : tryFormatDM dows months txt y = some d) : d.Valid := by
  simp only [tryFormatDM] at h
  split at h
  · split at h
    · split at h
      · split at h
        · split at h
          · exact mkValidDate_valid h
          · cases h
        · cases h
      · cases h
    · cases h
  · cases h

theorem parseDateFragment_valid {fragment : List Char} {y : Nat} {d : Date}
    (h : parseDateFragment fragment y = some d) : d.Valid := by
  simp only [parseDateFragment] at h
  split at h
  · cases h
  · split at h
    · cases h; exact tryFormatDM_valid (by assumption)
    · split at h
      · cases h; exact tryFormatDM_valid (by assumption)
      · split at h
        · cases h; exact tryFormatDM_valid (by assumption)
        · exact tryFormatDM_valid h

/-! ## Harvest de-duplication lemmas -/

theorem harvestAux_countP (v : Option (List Char)) :
    ∀ (cards : List Card) (seen : List (Option (List Char))) (acc : List Card),
      (harvestAux 0 cards seen acc).countP (fun c => decide (c.cardId = v)) =
        acc.countP (fun c => decide (c.cardId = v)) +
          (if v ∈ seen then 0
           else min 1 (cards.countP (fun c => decide (c.cardId = v)))) := by
  intro cards
  induction cards with
  | nil =>
    intro seen acc
    simp [harvestAux]
  | cons c rest ih =>
    intro seen acc
    simp only [harvestAux]
    by_cases hmem : c.cardId ∈ seen
    · rw [if_pos hmem, ih]
      by_cases hv : v ∈ seen
      · simp [hv]
      · have hne : ¬(c.cardId = v) := fun he => hv (he ▸ hmem)
        rw [if_neg hv, if_neg hv, List.countP_cons]
        simp [hne]
    · rw [if_neg hmem]
      simp only [ne_eq, not_true_eq_false, false_and, if_false, ih]
      rw [List.countP_append, List.countP_cons]
      by_cases hv : v ∈ seen
      · have hne : ¬(c.cardId = v) := fun he => hmem (by rw [he]; exact hv)
        have hv2 : v ∈ c.cardId :: seen := List.mem_cons_of_mem _ hv
        rw [if_pos hv, if_pos hv2]
        simp [hne]
      · by_cases hev : c.cardId = v
        · have hv2 : v ∈ c.cardId :: seen := by rw [hev]; exact List.mem_cons_self _ _
          rw [if_neg hv, if_pos hv2]
          simp [hev]
        · have hv2 : v ∉ c.cardId :: seen := by
            intro hc
            rcases List.mem_cons.mp hc with he | he
            · exact hev he.symm
            · exact hv he
          rw [if_neg hv, if_neg hv2]
          simp [hev]

/-- C1 (amended): in an uncapped harvest, every identifier value carried by
at least one enumerated card — the absent identifier included — yields
exactly one record. -/
theorem claim_C1_dedup (cards : List Card) (v : Option (List Char))
    (h : 0 < cards.countP (fun c => decide (c.cardId = v))) :
    (harvest 0 cards).countP (fun c => decide (c.cardId = v)) = 1 := by
  unfold harvest
  rw [harvestAux_countP]
  simp only [List.not_mem_nil, if_false, List.countP_nil]
  omega

/-- C1 witness: on three cards, two sharing the identifier `"a"`, exactly
one `"a"` record is harvested. -/
theorem claim_C1_witness :
    ((harvest 0 [⟨some "a".toList, 7⟩, ⟨some "a".toList, 8⟩, ⟨none, 9⟩]).countP
      (fun c => decide (c.cardId = some "a".toList))) = 1 :=
  claim_C1_dedup _ _ (by decide)

/-- C1 counterexample: two cards with absent identifiers do not both yield
records — the first one's `None` identifier enters the seen set and the
second card is skipped, so the claim's always-new treatment of
absent-identifier cards is false on the code. -/
theorem claim_C1_counterexample :
    harvest 0 [⟨none, 0⟩, ⟨none, 1⟩] = [⟨none, 0⟩] := by
  decide

/-! ## C4, C5: label date parsing -/

/-- C4: when both the departure and the arrival fragments of a descriptive
label parse, the returned arrival date is the parsed arrival advanced one
day at a time while it precedes the departure — hence it equals the
departure date when the parsed arrival was earlier, and is returned
unchanged otherwise. -/
theorem claim_C4_rollover (label : List Char) (y : Nat) (dpd ard : Date)
    (hd : parseDateFragment
      (splitArrives (label.map fun c => if c = narrowNbsp then ' ' else c)).1 y = some dpd)
    (ha : parseDateFragment
      (splitArrives (label.map fun c => if c = narrowNbsp then ' ' else c)).2 y = some ard) :
    parseDatesFromLabel label y = (some dpd, some (if ard.ltb dpd then dpd else ard)) := by
  have hvd := parseDateFragment_valid hd
  have hva := parseDateFragment_valid ha
  simp only [parseDatesFromLabel]
  rw [hd, ha]
  dsimp only
  rw [rolloverArrival_eq hvd hva]

/-- C4 witness: both fragments of the sample label parse, the arrival is
not earlier, and it is returned unchanged. -/
theorem claim_C4_witness :
    parseDatesFromLabel "departs on Mon, Dec 1 and arrives on Tue, Dec 2".toList 2025 =
      (some ⟨2025, 12, 1⟩,
        some (if (⟨2025, 12, 2⟩ : Date).ltb ⟨2025, 12, 1⟩ then ⟨2025, 12, 1⟩
          else ⟨2025, 12, 2⟩)) :=
  claim_C4_rollover _ 2025 ⟨2025, 12, 1⟩ ⟨2025, 12, 2⟩ (by decide) (by decide)

/-- C5: when the label resolves a departure date but no arrival date and
the (normalised) arrival-time text contains a `+N` day-offset, the
returned arrival date is the departure date advanced by `N` days. -/
theorem claim_C5_plus_offset (card : TimesCard) (y : Nat) (dpd : Date) (n : Nat)
    (hne : cardLabel card ≠ [])
    (hdep : (parseDatesFromLabel (normaliseText (cardLabel card)) y).1 = some dpd)
    (harr : (parseDatesFromLabel (normaliseText (cardLabel card)) y).2 = none)
    (hplus : findPlusDigit (arriveText card) = some n) :
    (extractTimes card y).arrivalDate = some (dpd.addDays n) := by
  simp only [extractTimes, if_pos hne, hdep, harr, hplus]

/-- C5 witness: a card whose label resolves only the departure date and
whose arrival text carries `+1` gets the next-day arrival date. -/
theorem claim_C5_witness :
    (extractTimes
      ⟨["10:00 PM".toList, "6:30 AM+1".toList],
        some "Leaves at 10 PM on Monday, March 3.".toList⟩ 2025).arrivalDate =
      some ((⟨2025, 3, 3⟩ : Date).addDays 1) :=
  claim_C5_plus_offset _ 2025 ⟨2025, 3, 3⟩ 1 (by decide) (by decide) (by decide) (by decide)

/-! ## C6, C7: row normalisation -/

/-- C6 (amended): the arrival display is annotated with the ISO arrival
date exactly when a non-empty arrival date was resolved — whether or not
it differs from the departure date; with no arrival date the display is
the arrival time text verbatim. -/
theorem claim_C6_arrival_display (row : RawRow) (t : Date) :
    (row.arrivalDate ≠ [] → row.arrival ≠ [] →
      (normaliseRow row t).waktuDatang = row.arrival ++ [' ', '('] ++ row.arrivalDate ++ [')']) ∧
    (row.arrivalDate = [] → (normaliseRow row t).waktuDatang = row.arrival) := by
  constructor
  · intro h1 h2
    simp [normaliseRow, h1, h2]
  · intro h1
    simp [normaliseRow, h1]

/-- C6 witness: a row with an arrival date distinct from the departure
date is displayed annotated. -/
theorem claim_C6_witness :
    (normaliseRow
      ⟨"Garuda".toList, "Rp 2.000.000".toList, "21:00".toList, "2025-03-04".toList,
        "05:30".toList, "2025-03-05".toList, "8h 30m".toList, "1 stop".toList, some 1⟩
      ⟨2025, 3, 4⟩).waktuDatang =
      "05:30".toList ++ [' ', '('] ++ "2025-03-05".toList ++ [')'] :=
  (claim_C6_arrival_display _ _).1 (by decide) (by decide)

/-- C6 counterexample: a same-day arrival (arrival date equal to the
departure date, both non-empty) is still annotated, contradicting the
claim that the annotation appears only when the dates differ. -/
theorem claim_C6_counterexample :
    (normaliseRow
      ⟨"Lion Air".toList, "Rp 1.000.000".toList, "08:00".toList, "2025-03-03".toList,
        "10:00".toList, "2025-03-03".toList, "2h".toList, "Nonstop".toList, some 0⟩
      ⟨2025, 3, 3⟩).waktuDatang = "10:00 (2025-03-03)".toList ∧
    (normaliseRow
      ⟨"Lion Air".toList, "Rp 1.000.000".toList, "08:00".toList, "2025-03-03".toList,
        "10:00".toList, "2025-03-03".toList, "2h".toList, "Nonstop".toList, some 0⟩
      ⟨2025, 3, 3⟩).waktuDatang ≠ "10:00".toList := by
  constructor
  · decide
  · decide

/-- The ISO rendering of a date is never the empty string. -/
theorem isoDateChars_ne_nil (d : Date) : isoDateChars d ≠ [] := by
  simp only [isoDateChars]
  intro h
  have h2 := (List.append_eq_nil.mp h).1
  have h3 := (List.append_eq_nil.mp h2).2
  cases h3

/-- C7: the final row's departure date is the raw parsed date when one was
parsed, and the navigated target date's ISO form otherwise; it is never
empty. -/
theorem claim_C7_departure_date (row : RawRow) (t : Date) :
    (normaliseRow row t).tanggal =
      (if row.departureDate = [] then isoDateChars t else row.departureDate) ∧
    (normaliseRow row t).tanggal ≠ [] := by
  constructor
  · simp [normaliseRow]
  · simp only [normaliseRow]
    by_cases h : row.departureDate = []
    · simp only [if_pos h]
      exact isoDateChars_ne_nil t
    · simp only [if_neg h]
      exact h

/-! ## C8: pagination-loop termination -/

theorem stillRunning_stays_false (env : PageEnv) {n m : Nat}
    (h : stillRunning env n = false) (hm : n ≤ m) : stillRunning env m = false := by
  induction m with
  | zero =>
    have : n = 0 := by omega
    rwa [this] at h
  | succ k ih =>
    rcases Nat.lt_or_ge n (k + 1) with hk | hk
    · have := ih (by omega)
      simp [stillRunning, this]
    · have : n = k + 1 := by omega
      rwa [this] at h

/-- C8: if from iteration `N` on no "show more" control is displayed and
the re-read card count never exceeds the count at the top of the
iteration, the harvest loop is no longer running after iteration `N` —
it terminates within a bounded number of further iterations. -/
theorem claim_C8_termination (env : PageEnv) (N : Nat)
    (h : ∀ i, N ≤ i → env.showMore i = false ∧ env.recount i ≤ env.topCount i) :
    ∀ n, N < n → stillRunning env n = false := by
  intro n hn
  have hN := h N (Nat.le_refl N)
  have hbreak : breaksAt env N = true := by
    simp [breaksAt, hN.1, hN.2]
  have hstop : stillRunning env (N + 1) = false := by
    simp [stillRunning, hbreak]
  exact stillRunning_stays_false env hstop (by omega)

/-- C8 witness: with a constant page (five cards, never a "show more"
control), the loop has stopped by iteration 1. -/
theorem claim_C8_witness :
    stillRunning ⟨fun _ => 5, fun _ => false, fun _ => 5⟩ 1 = false :=
  claim_C8_termination ⟨fun _ => 5, fun _ => false, fun _ => 5⟩ 0
    (fun _ _ => ⟨rfl, Nat.le_refl 5⟩) 1 (by decide)

/-! ## C9: label round-trip -/

theorem labelRoundTripCheck_true : labelRoundTripCheck = true := by
  decide

/-- C9: for every valid date expressible by the label grammar, rendering it
with `date_to_label` and parsing the label back with `label_to_date` under
the date's own year returns exactly the date. -/
theorem claim_C9_roundtrip (d : Date) (hv : d.Valid) (hy : d.year ≤ 9999) :
    labelToDate (dateToLabel d) d.year = some d := by
  obtain ⟨y, m, dd⟩ := d
  obtain ⟨hy1, hm1, hm2, hd1, hd2⟩ := hv
  simp only at hy1 hm1 hm2 hd1 hd2 hy
  have hd31 : dd ≤ 31 := le_trans hd2 (daysInMonth_le_31 _ _)
  have hw : weekdayIdx ⟨y, m, dd⟩ < 7 := Nat.mod_lt _ (by omega)
  have hchk := labelRoundTripCheck_true
  unfold labelRoundTripCheck at hchk
  rw [List.all_eq_true] at hchk
  have h1 := hchk (weekdayIdx ⟨y, m, dd⟩) (List.mem_range.mpr hw)
  rw [List.all_eq_true] at h1
  have h2 := h1 (m - 1) (List.mem_range.mpr (by omega))
  rw [List.all_eq_true] at h2
  have h3 := h2 (dd - 1) (List.mem_range.mpr (by omega))
  rw [decide_eq_true_eq] at h3
  have hm' : m - 1 + 1 = m := by omega
  have hd' : dd - 1 + 1 = dd := by omega
  rw [hm', hd'] at h3
  have hlab : dateToLabel ⟨y, m, dd⟩ =
      dowAbbrevs.getD (weekdayIdx ⟨y, m, dd⟩) [] ++ [',', ' '] ++
        monthAbbrevs.getD (m - 1) [] ++ [' '] ++ digitsToChars (natDigits dd) := rfl
  unfold labelToDate
  rw [hlab, h3]
  show mkValidDate y m dd = some ⟨y, m, dd⟩
  unfold mkValidDate
  rw [if_pos ⟨hy1, hy, hm1, hm2, hd1, hd2⟩]

/-- C9 witness: the default date label round-trips. -/
theorem claim_C9_witness :
    labelToDate (dateToLabel ⟨2025, 10, 8⟩) 2025 = some ⟨2025, 10, 8⟩ :=
  claim_C9_roundtrip ⟨2025, 10, 8⟩ (by decide) (by decide)

/-! ## base64 lemmas -/

theorem lookupIdx_lt {c : Char} : ∀ (l : List Char) (i s : Nat),
    lookupIdx c l i = some s → s < i + l.length := by
  intro l
  induction l with
  | nil => intro i s h; cases h
  | cons a rest ih =>
    intro i s h
    unfold lookupIdx at h
    by_cases ha : a = c
    · rw [if_pos ha] at h
      cases h
      simp
    · rw [if_neg ha] at h
      have := ih (i + 1) s h
      simp only [List.length_cons]
      omega

theorem sextetOfChar_lt {c : Char} {s : Nat} (h : sextetOfChar c = some s) : s < 64 := by
  have := lookupIdx_lt b64Alphabet 0 s h
  simpa [b64Alphabet] using this

theorem sextetRoundCheck :
    ((List.range 64).all fun s => decide (sextetOfChar (charOfSextet s) = some s)) = true := by
  decide

theorem sextetOfChar_charOfSextet {s : Nat} (h : s < 64) :
    sextetOfChar (charOfSextet s) = some s := by
  have := List.all_eq_true.mp sextetRoundCheck s (List.mem_range.mpr h)
  rwa [decide_eq_true_eq] at this

theorem charNeCheck :
    ((List.range 64).all fun s => decide (charOfSextet s ≠ '=')) = true := by
  decide

theorem charOfSextet_ne_eq {s : Nat} (h : s < 64) : charOfSextet s ≠ '=' := by
  have := List.all_eq_true.mp charNeCheck s (List.mem_range.mpr h)
  rwa [decide_eq_true_eq] at this

theorem b64core_ne_eq : ∀ (bs : List Nat), (∀ b ∈ bs, b < 256) →
    ∀ c ∈ b64core bs, c ≠ '=' := by
  intro bs
  induction bs using b64core.induct with
  | case1 =>
    intro _ c hc
    cases hc
  | case2 a =>
    intro hb c hc
    have ha : a < 256 := hb a (by simp)
    simp only [b64core, List.mem_cons, List.not_mem_nil, or_false] at hc
    rcases hc with rfl | rfl
    · exact charOfSextet_ne_eq (by omega)
    · exact charOfSextet_ne_eq (by omega)
  | case3 a b =>
    intro hb c hc
    have ha : a < 256 := hb a (by simp)
    have hbb : b < 256 := hb b (by simp)
    simp only [b64core, List.mem_cons, List.not_mem_nil, or_false] at hc
    rcases hc with rfl | rfl | rfl
    · exact charOfSextet_ne_eq (by omega)
    · exact charOfSextet_ne_eq (by omega)
    · exact charOfSextet_ne_eq (by omega)
  | case4 a b cc rest ih =>
    intro hb ch hc
    have ha : a < 256 := hb a (by simp)
    have hbb : b < 256 := hb b (by simp)
    have hcc : cc < 256 := hb cc (by simp)
    simp only [b64core, List.mem_cons] at hc
    rcases hc with rfl | rfl | rfl | rfl | hc
    · exact charOfSextet_ne_eq (by omega)
    · exact charOfSextet_ne_eq (by omega)
    · exact charOfSextet_ne_eq (by omega)
    · exact charOfSextet_ne_eq (by omega)
    · exact ih (fun x hx => hb x (by simp [hx])) ch hc

theorem dropWhileEq_replicate (p : Nat) (t : List Char) :
    List.dropWhile (fun c => decide (c = '=')) (List.replicate p '=' ++ t) =
      List.dropWhile (fun c => decide (c = '=')) t := by
  induction p with
  | zero => simp
  | succ k ih => simp [List.replicate_succ, List.dropWhile_cons, ih]

theorem rstripEq_append_replicate (s : List Char) (p : Nat)
    (h : ∀ c ∈ s, c ≠ '=') :
    rstripEq (s ++ List.replicate p '=') = s := by
  unfold rstripEq
  rw [List.reverse_append, List.reverse_replicate, dropWhileEq_replicate]
  cases hs : s.reverse with
  | nil =>
    have : s = [] := by simpa using congrArg List.reverse hs
    simp [hs, this]
  | cons a t =>
    have ha : a ∈ s := by
      have : a ∈ s.reverse := by rw [hs]; simp
      simpa using this
    rw [List.dropWhile_cons, if_neg (by simpa using h a ha)]
    rw [← hs, List.reverse_reverse]

theorem b64pad_core : ∀ (bs : List Nat),
    (4 - (b64core bs).length % 4) % 4 = b64padLen bs := by
  intro bs
  induction bs using b64core.induct with
  | case1 => simp [b64core, b64padLen]
  | case2 a => simp [b64core, b64padLen]
  | case3 a b => simp [b64core, b64padLen]
  | case4 a b cc rest ih =>
    simp only [b64core, b64padLen, List.length_cons]
    omega

theorem b64decode_core_pad : ∀ (bs : List Nat), (∀ b ∈ bs, b < 256) →
    b64decode (b64core bs ++ List.replicate (b64padLen bs) '=') = some bs := by
  intro bs
  induction bs using b64core.induct with
  | case1 =>
    intro _
    simp [b64core, b64padLen, b64decode]
  | case2 a =>
    intro hb
    have ha : a < 256 := hb a (by simp)
    have h1 : a / 4 < 64 := by omega
    have h2 : a % 4 * 16 < 64 := by omega
    have e0 : a / 4 * 4 + a % 4 * 16 / 16 = a := by omega
    simp only [b64core, b64padLen, List.replicate, List.cons_append, List.nil_append,
      b64decode]
    rw [sextetOfChar_charOfSextet h1, sextetOfChar_charOfSextet h2]
    dsimp only
    rw [e0, if_pos (⟨trivial, trivial, trivial⟩ : True ∧ True ∧ True)]
  | case3 a b =>
    intro hb
    have ha : a < 256 := hb a (by simp)
    have hbb : b < 256 := hb b (by simp)
    have h1 : a / 4 < 64 := by omega
    have h2 : a % 4 * 16 + b / 16 < 64 := by omega
    have h3 : b % 16 * 4 < 64 := by omega
    have e1 : a / 4 * 4 + (a % 4 * 16 + b / 16) / 16 = a := by omega
    have e2 : (a % 4 * 16 + b / 16) % 16 * 16 + b % 16 * 4 / 4 = b := by omega
    simp only [b64core, b64padLen, List.replicate, List.cons_append, List.nil_append,
      b64decode]
    split_ifs with hc1 hc2
    · exact absurd hc1.1 (charOfSextet_ne_eq h3)
    · rw [sextetOfChar_charOfSextet h1, sextetOfChar_charOfSextet h2,
        sextetOfChar_charOfSextet h3]
      dsimp only
      rw [e1, e2]
    · simp at hc2
  | case4 a b cc rest ih =>
    intro hb
    have ha : a < 256 := hb a (by simp)
    have hbb : b < 256 := hb b (by simp)
    have hcc : cc < 256 := hb cc (by simp)
    have h1 : a / 4 < 64 := by omega
    have h2 : a % 4 * 16 + b / 16 < 64 := by omega
    have h3 : b % 16 * 4 + cc / 64 < 64 := by omega
    have h4 : cc % 64 < 64 := by omega
    have e1 : a / 4 * 4 + (a % 4 * 16 + b / 16) / 16 = a := by omega
    have e2 : (a % 4 * 16 + b / 16) % 16 * 16 + (b % 16 * 4 + cc / 64) / 4 = b := by omega
    have e3 : (b % 16 * 4 + cc / 64) % 4 * 64 + cc % 64 = cc := by omega
    have ihr := ih (fun x hx => hb x (by simp [hx]))
    simp only [b64core, b64padLen, List.cons_append, List.append_assoc] at ihr ⊢
    simp only [b64decode]
    split_ifs with hc1 hc2
    · exact absurd hc1.1 (charOfSextet_ne_eq h3)
    · exact absurd hc2.1 (charOfSextet_ne_eq h4)
    · rw [sextetOfChar_charOfSextet h1, sextetOfChar_charOfSextet h2,
        sextetOfChar_charOfSextet h3, sextetOfChar_charOfSextet h4, ihr]
      dsimp only
      rw [e1, e2, e3]

/-- The strip-then-repad round trip through the encoder: decoding the
padding-stripped, then repadded, encoding of any byte list recovers it. -/
theorem b64_roundtrip (bs : List Nat) (hb : ∀ b ∈ bs, b < 256) :
    b64decode (rstripEq (b64encode bs) ++ b64pad (rstripEq (b64encode bs))) = some bs := by
  have hstrip : rstripEq (b64encode bs) = b64core bs :=
    rstripEq_append_replicate _ _ (b64core_ne_eq bs hb)
  rw [hstrip]
  unfold b64pad
  rw [b64pad_core]
  exact b64decode_core_pad bs hb

theorem b64decode_bytes_lt_aux : ∀ (n : Nat) (s : List Char) (bs : List Nat),
    s.length ≤ n → b64decode s = some bs → ∀ b ∈ bs, b < 256 := by
  intro n
  induction n with
  | zero =>
    intro s bs hlen h b hbmem
    cases s with
    | nil =>
      simp only [b64decode, Option.some.injEq] at h
      subst h
      cases hbmem
    | cons c t => simp at hlen
  | succ k ih =>
    intro s bs hlen h b hbmem
    match s, hlen, h with
    | [], _, h =>
      simp only [b64decode, Option.some.injEq] at h
      subst h
      cases hbmem
    | [c1], _, h => simp [b64decode] at h
    | [c1, c2], _, h => simp [b64decode] at h
    | [c1, c2, c3], _, h => simp [b64decode] at h
    | c1 :: c2 :: c3 :: c4 :: rest, hlen, h =>
      simp only [b64decode] at h
      split_ifs at h with hc1 hc2
      · rcases hs1 : sextetOfChar c1 with _ | s1 <;> rw [hs1] at h
        · cases h
        · rcases hs2 : sextetOfChar c2 with _ | s2 <;> rw [hs2] at h
          · cases h
          · dsimp only at h
            cases h
            simp only [List.mem_cons, List.not_mem_nil, or_false] at hbmem
            have b1 := sextetOfChar_lt hs1
            have b2 := sextetOfChar_lt hs2
            omega
      · rcases hs1 : sextetOfChar c1 with _ | s1 <;> rw [hs1] at h
        · cases h
        · rcases hs2 : sextetOfChar c2 with _ | s2 <;> rw [hs2] at h
          · cases h
          · rcases hs3 : sextetOfChar c3 with _ | s3 <;> rw [hs3] at h
            · cases h
            · dsimp only at h
              cases h
              simp only [List.mem_cons, List.not_mem_nil, or_false] at hbmem
              have b1 := sextetOfChar_lt hs1
              have b2 := sextetOfChar_lt hs2
              have b3 := sextetOfChar_lt hs3
              omega
      · rcases hs1 : sextetOfChar c1 with _ | s1 <;> rw [hs1] at h
        · cases h
        · rcases hs2 : sextetOfChar c2 with _ | s2 <;> rw [hs2] at h
          · cases h
          · rcases hs3 : sextetOfChar c3 with _ | s3 <;> rw [hs3] at h
            · cases h
            · rcases hs4 : sextetOfChar c4 with _ | s4 <;> rw [hs4] at h
              · cases h
              · rcases hrest : b64decode rest with _ | tail <;> rw [hrest] at h
                · cases h
                · dsimp only at h
                  cases h
                  simp only [List.mem_cons] at hbmem
                  have b1 := sextetOfChar_lt hs1
                  have b2 := sextetOfChar_lt hs2
                  have b3 := sextetOfChar_lt hs3
                  have b4 := sextetOfChar_lt hs4
                  rcases hbmem with rfl | rfl | rfl | hbmem
                  · omega
                  · omega
                  · omega
                  · have hlr : rest.length ≤ k := by
                      simp only [List.length_cons] at hlen
                      omega
                    exact ih rest tail hlr hrest b hbmem

/-- Every byte a successful decode produces is below 256. -/
theorem b64decode_bytes_lt {s : List Char} {bs : List Nat}
    (h : b64decode s = some bs) : ∀ b ∈ bs, b < 256 :=
  b64decode_bytes_lt_aux s.length s bs (Nat.le_refl _) h

/-! ## Leftmost-date-match lemmas -/

theorem fdmAux_spec {bs : List Nat} : ∀ (k i s : Nat), fdmAux bs k i = some s →
    matchesDateAt bs s = true ∧ i ≤ s ∧ ∀ j, i ≤ j → j < s → matchesDateAt bs j = false := by
  intro k
  induction k with
  | zero => intro i s h; cases h
  | succ n ih =>
    intro i s h
    unfold fdmAux at h
    by_cases hm : matchesDateAt bs i = true
    · rw [if_pos hm] at h
      cases h
      exact ⟨hm, Nat.le_refl _, fun j h1 h2 => by omega⟩
    · rw [if_neg hm] at h
      obtain ⟨hs, hle, hmin⟩ := ih (i + 1) s h
      refine ⟨hs, by omega, fun j h1 h2 => ?_⟩
      rcases Nat.lt_or_ge j (i + 1) with hj | hj
      · have : j = i := by omega
        subst this
        simpa using hm
      · exact hmin j hj h2

theorem findDateMatch_spec {bs : List Nat} {s : Nat} (h : findDateMatch bs = some s) :
    matchesDateAt bs s = true ∧ ∀ j, j < s → matchesDateAt bs j = false := by
  obtain ⟨h1, _, h3⟩ := fdmAux_spec bs.length 0 s h
  exact ⟨h1, fun j hj => h3 j (Nat.zero_le _) hj⟩

theorem matchesDateAt_congr {u v : List Nat} (hlen : u.length = v.length)
    (hD : ∀ p, isDigitByte (u.getD p 0) = isDigitByte (v.getD p 0))
    (hE : ∀ p, (u.getD p 0 = 45) ↔ (v.getD p 0 = 45)) :
    ∀ i, matchesDateAt u i = matchesDateAt v i := by
  intro i
  have hE' : ∀ p, ((u.getD p 0 == 45) : Bool) = ((v.getD p 0 == 45) : Bool) := by
    intro p
    by_cases h45 : v.getD p 0 = 45
    · have hu : u.getD p 0 = 45 := (hE p).mpr h45
      rw [hu, h45]
    · have hu : ¬(u.getD p 0 = 45) := fun hc => h45 ((hE p).mp hc)
      rw [beq_eq_false_iff_ne.mpr hu, beq_eq_false_iff_ne.mpr h45]
  simp only [matchesDateAt, hlen, hD, hE']

theorem fdmAux_congr {u v : List Nat}
    (h : ∀ i, matchesDateAt u i = matchesDateAt v i) :
    ∀ (k i : Nat), fdmAux u k i = fdmAux v k i := by
  intro k
  induction k with
  | zero => intro i; rfl
  | succ n ih =>
    intro i
    unfold fdmAux
    rw [h i, ih (i + 1)]

theorem findDateMatch_congr {u v : List Nat} (hlen : u.length = v.length)
    (h : ∀ i, matchesDateAt u i = matchesDateAt v i) :
    findDateMatch u = findDateMatch v := by
  unfold findDateMatch
  rw [hlen, fdmAux_congr h]

/-! ## The patched blob -/

theorem list_len4 {α : Type} (l : List α) (h : l.length = 4) :
    ∃ a b c d, l = [a, b, c, d] := by
  match l, h with
  | [a, b, c, d], _ => exact ⟨a, b, c, d, rfl⟩

theorem list_len2 {α : Type} (l : List α) (h : l.length = 2) :
    ∃ a b, l = [a, b] := by
  match l, h with
  | [a, b], _ => exact ⟨a, b, rfl⟩

/-- Explicit ten-byte form of the ISO rendering, with digit bounds. -/
theorem isoDateBytes_form (d : Date) (hy : d.year ≤ 9999) (hm : d.month ≤ 99)
    (hd : d.day ≤ 99) :
    ∃ a0 a1 a2 a3 b0 b1 c0 c1,
      isoDateBytes d = [a0, a1, a2, a3, 45, b0, b1, 45, c0, c1] ∧
      (∀ x ∈ [a0, a1, a2, a3, b0, b1, c0, c1], 48 ≤ x ∧ x ≤ 57) := by
  have hy4 : (natDigits d.year).length ≤ 4 := natDigits_length_le (by norm_num; omega) (by omega)
  have hm2 : (natDigits d.month).length ≤ 2 := natDigits_length_le (by norm_num; omega) (by omega)
  have hd2 : (natDigits d.day).length ≤ 2 := natDigits_length_le (by norm_num; omega) (by omega)
  have ly : (digitsToBytes (padZeros 4 (natDigits d.year))).length = 4 := by
    rw [digitsToBytes_length, padZeros_length hy4]
  have lm : (digitsToBytes (padZeros 2 (natDigits d.month))).length = 2 := by
    rw [digitsToBytes_length, padZeros_length hm2]
  have ld : (digitsToBytes (padZeros 2 (natDigits d.day))).length = 2 := by
    rw [digitsToBytes_length, padZeros_length hd2]
  obtain ⟨a0, a1, a2, a3, hey⟩ := list_len4 _ ly
  obtain ⟨b0, b1, hem⟩ := list_len2 _ lm
  obtain ⟨c0, c1, hed⟩ := list_len2 _ ld
  have hby : ∀ b ∈ digitsToBytes (padZeros 4 (natDigits d.year)), 48 ≤ b ∧ b ≤ 57 :=
    digitsToBytes_mem_lt (padZeros_lt_ten (natDigitsAux_lt_ten d.year d.year))
  have hbm : ∀ b ∈ digitsToBytes (padZeros 2 (natDigits d.month)), 48 ≤ b ∧ b ≤ 57 :=
    digitsToBytes_mem_lt (padZeros_lt_ten (natDigitsAux_lt_ten d.month d.month))
  have hbd : ∀ b ∈ digitsToBytes (padZeros 2 (natDigits d.day)), 48 ≤ b ∧ b ≤ 57 :=
    digitsToBytes_mem_lt (padZeros_lt_ten (natDigitsAux_lt_ten d.day d.day))
  rw [hey] at hby
  rw [hem] at hbm
  rw [hed] at hbd
  refine ⟨a0, a1, a2, a3, b0, b1, c0, c1, ?_, ?_⟩
  · unfold isoDateBytes
    rw [hey, hem, hed]
    rfl
  · intro x hx
    simp only [List.mem_cons, List.not_mem_nil, or_false] at hx
    rcases hx with rfl | rfl | rfl | rfl | rfl | rfl | rfl | rfl
    · exact hby x (by simp)
    · exact hby x (by simp)
    · exact hby x (by simp)
    · exact hby x (by simp)
    · exact hbm x (by simp)
    · exact hbm x (by simp)
    · exact hbd x (by simp)
    · exact hbd x (by simp)

/-- Position-wise description of the patched blob
`blob.take s ++ iso ++ blob.drop (s + 10)`. -/
theorem patched_getD {blob iso : List Nat} {s : Nat} (hs : s + 10 ≤ blob.length)
    (hlen : iso.length = 10) (p : Nat) :
    (blob.take s ++ iso ++ blob.drop (s + 10)).getD p 0 =
      (if p < s then blob.getD p 0
       else if p < s + 10 then iso.getD (p - s) 0
       else blob.getD p 0) := by
  have hts : (blob.take s).length = s := by
    rw [List.length_take]
    omega
  rcases Nat.lt_or_ge p s with hp | hp
  · rw [if_pos hp]
    have h1 : (blob.take s ++ (iso ++ blob.drop (s + 10))).getD p 0 =
        (blob.take s).getD p 0 :=
      List.getD_append _ _ _ _ (by omega)
    rw [List.append_assoc, h1]
    rw [List.getD_eq_getElem?_getD, List.getD_eq_getElem?_getD, List.getElem?_take,
      if_pos hp]
  · have h1 : (blob.take s ++ (iso ++ blob.drop (s + 10))).getD p 0 =
        (iso ++ blob.drop (s + 10)).getD (p - (blob.take s).length) 0 :=
      List.getD_append_right _ _ _ _ (by omega)
    rw [if_neg (Nat.not_lt.mpr hp), List.append_assoc, h1, hts]
    rcases Nat.lt_or_ge p (s + 10) with hp2 | hp2
    · rw [if_pos hp2]
      have h2 : (iso ++ blob.drop (s + 10)).getD (p - s) 0 = iso.getD (p - s) 0 :=
        List.getD_append _ _ _ _ (by omega)
      rw [h2]
    · rw [if_neg (Nat.not_lt.mpr hp2)]
      have h2 : (iso ++ blob.drop (s + 10)).getD (p - s) 0 =
          (blob.drop (s + 10)).getD (p - s - iso.length) 0 :=
        List.getD_append_right _ _ _ _ (by omega)
      rw [h2, hlen]
      rw [List.getD_eq_getElem?_getD, List.getD_eq_getElem?_getD, List.getElem?_drop]
      have hidx : s + 10 + (p - s - 10) = p := by omega
      rw [hidx]

theorem patched_length {blob iso : List Nat} {s : Nat} (hs : s + 10 ≤ blob.length)
    (hlen : iso.length = 10) :
    (blob.take s ++ iso ++ blob.drop (s + 10)).length = blob.length := by
  simp only [List.length_append, List.length_take, List.length_drop, hlen]
  omega

theorem isDigitByte_iff {x : Nat} : isDigitByte x = true ↔ (48 ≤ x ∧ x ≤ 57) := by
  simp [isDigitByte]

theorem matchesDateAt_elim {bs : List Nat} {s : Nat} (h : matchesDateAt bs s = true) :
    s + 10 ≤ bs.length ∧
    (∀ j, j < 10 → j ≠ 4 → j ≠ 7 → isDigitByte (bs.getD (s + j) 0) = true) ∧
    bs.getD (s + 4) 0 = 45 ∧ bs.getD (s + 7) 0 = 45 := by
  simp only [matchesDateAt, Bool.and_eq_true, decide_eq_true_eq, beq_iff_eq] at h
  obtain ⟨⟨⟨⟨⟨⟨⟨⟨⟨⟨hl, h0⟩, h1⟩, h2⟩, h3⟩, h4⟩, h5⟩, h6⟩, h7⟩, h8⟩, h9⟩ := h
  refine ⟨hl, ?_, h4, h7⟩
  intro j hj hj4 hj7
  interval_cases j
  · simpa using h0
  · exact h1
  · exact h2
  · exact h3
  · omega
  · exact h5
  · exact h6
  · omega
  · exact h8
  · exact h9

/-- Byte-class agreement between the patched blob and the original: the new
date bytes have exactly the digit/dash shape of what they replace, so
every position classifies identically. -/
theorem patched_classes {blob : List Nat} {s : Nat} (d : Date)
    (hy : d.year ≤ 9999) (hm : d.month ≤ 99) (hd : d.day ≤ 99)
    (hmt : matchesDateAt blob s = true) :
    (∀ p, isDigitByte ((blob.take s ++ isoDateBytes d ++ blob.drop (s + 10)).getD p 0) =
      isDigitByte (blob.getD p 0)) ∧
    (∀ p, ((blob.take s ++ isoDateBytes d ++ blob.drop (s + 10)).getD p 0 = 45) ↔
      (blob.getD p 0 = 45)) := by
  obtain ⟨hl, hdig, h45a, h45b⟩ := matchesDateAt_elim hmt
  have hiso_len : (isoDateBytes d).length = 10 := isoDateBytes_length hy hm hd
  obtain ⟨a0, a1, a2, a3, b0, b1, c0, c1, hform, hbnd⟩ := isoDateBytes_form d hy hm hd
  have key : ∀ p, ((blob.take s ++ isoDateBytes d ++ blob.drop (s + 10)).getD p 0 =
      blob.getD p 0) ∨
      (∃ j, j < 10 ∧ p = s + j ∧
        (blob.take s ++ isoDateBytes d ++ blob.drop (s + 10)).getD p 0 =
          (isoDateBytes d).getD j 0) := by
    intro p
    rw [patched_getD hl hiso_len p]
    rcases Nat.lt_or_ge p s with hp | hp
    · left
      rw [if_pos hp]
    · rcases Nat.lt_or_ge p (s + 10) with hp2 | hp2
      · right
        refine ⟨p - s, by omega, by omega, ?_⟩
        rw [if_neg (Nat.not_lt.mpr hp), if_pos hp2]
      · left
        rw [if_neg (Nat.not_lt.mpr hp), if_neg (Nat.not_lt.mpr hp2)]
  have ha0 := hbnd a0 (by simp)
  have ha1 := hbnd a1 (by simp)
  have ha2 := hbnd a2 (by simp)
  have ha3 := hbnd a3 (by simp)
  have hb0 := hbnd b0 (by simp)
  have hb1 := hbnd b1 (by simp)
  have hc0 := hbnd c0 (by simp)
  have hc1 := hbnd c1 (by simp)
  have isoClass : ∀ j, j < 10 →
      (j ≠ 4 → j ≠ 7 → 48 ≤ (isoDateBytes d).getD j 0 ∧ (isoDateBytes d).getD j 0 ≤ 57) ∧
      (j = 4 ∨ j = 7 → (isoDateBytes d).getD j 0 = 45) := by
    intro j hj
    rw [hform]
    interval_cases j
    · exact ⟨fun _ _ => ha0, fun hc => absurd hc (by decide)⟩
    · exact ⟨fun _ _ => ha1, fun hc => absurd hc (by decide)⟩
    · exact ⟨fun _ _ => ha2, fun hc => absurd hc (by decide)⟩
    · exact ⟨fun _ _ => ha3, fun hc => absurd hc (by decide)⟩
    · exact ⟨fun h4 _ => absurd rfl h4, fun _ => rfl⟩
    · exact ⟨fun _ _ => hb0, fun hc => absurd hc (by decide)⟩
    · exact ⟨fun _ _ => hb1, fun hc => absurd hc (by decide)⟩
    · exact ⟨fun _ h7 => absurd rfl h7, fun _ => rfl⟩
    · exact ⟨fun _ _ => hc0, fun hc => absurd hc (by decide)⟩
    · exact ⟨fun _ _ => hc1, fun hc => absurd hc (by decide)⟩
  constructor
  · intro p
    rcases key p with hp | ⟨j, hj, rfl, hp⟩
    · rw [hp]
    · rw [hp]
      have hiso := isoClass j hj
      by_cases hj4 : j = 4
      · subst hj4
        rw [hiso.2 (Or.inl rfl), h45a]
      · by_cases hj7 : j = 7
        · subst hj7
          rw [hiso.2 (Or.inr rfl), h45b]
        · have hbounds := hiso.1 hj4 hj7
          have hblob := hdig j hj hj4 hj7
          rw [isDigitByte_iff.mpr hbounds, hblob]
  · intro p
    rcases key p with hp | ⟨j, hj, rfl, hp⟩
    · rw [hp]
    · rw [hp]
      have hiso := isoClass j hj
      by_cases hj4 : j = 4
      · subst hj4
        rw [hiso.2 (Or.inl rfl), h45a]
      · by_cases hj7 : j = 7
        · subst hj7
          rw [hiso.2 (Or.inr rfl), h45b]
        · have hbounds := hiso.1 hj4 hj7
          have hblob := isDigitByte_iff.mp (hdig j hj hj4 hj7)
          constructor
          · intro hc
            omega
          · intro hc
            omega

/-! ## `build_url_for_date` lemmas -/

theorem lookupQ_setQ : ∀ (q : List (List Char × List (List Char)))
    (k : List Char) (vs : List (List Char)),
    (lookupQ q k).isSome = true → lookupQ (setQ q k vs) k = some vs := by
  intro q
  induction q with
  | nil =>
    intro k vs h
    simp [lookupQ] at h
  | cons p rest ih =>
    intro k vs h
    obtain ⟨pk, pv⟩ := p
    by_cases hk : pk = k
    · simp [setQ, lookupQ, hk]
    · unfold lookupQ at h
      rw [if_neg hk] at h
      simp only [setQ, lookupQ, if_neg hk]
      exact ih k vs h

theorem getTfsVal_isSome {u : UrlModel} {tfs : List Char}
    (h : getTfsVal u = some tfs) : (lookupQ u.query tfsKey).isSome = true := by
  unfold getTfsVal at h
  rcases hq : lookupQ u.query tfsKey with _ | vs
  · rw [hq] at h
    cases h
  · simp

/-- What `build_url_for_date` produces on the success path: the `tfs`
parameter replaced by the re-encoded patched blob, everything else kept. -/
theorem buildUrlForDate_eq (u : UrlModel) (d : Date) {tfs : List Char}
    {blob : List Nat} {s : Nat}
    (htfs : getTfsVal u = some tfs) (hne : tfs ≠ [])
    (hdec : b64decode (tfs ++ b64pad tfs) = some blob)
    (hfind : findDateMatch blob = some s) :
    buildUrlForDate u d = { u with query := setQ u.query tfsKey [rstripEq (b64encode (blob.take s ++ isoDateBytes d ++ blob.drop (s + 10)))] } := by
  unfold buildUrlForDate
  rw [htfs]
  dsimp only
  rw [if_neg hne, hdec]
  dsimp only
  rw [hfind]

/-- Decoding the `tfs` parameter of the rewritten URL recovers exactly the
patched blob. -/
theorem decodeTfs_buildUrl (u : UrlModel) (d : Date) {tfs : List Char}
    {blob : List Nat} {s : Nat}
    (htfs : getTfsVal u = some tfs) (hne : tfs ≠ [])
    (hdec : b64decode (tfs ++ b64pad tfs) = some blob)
    (hfind : findDateMatch blob = some s) :
    decodeTfsOf (buildUrlForDate u d) =
      some (blob.take s ++ isoDateBytes d ++ blob.drop (s + 10)) := by
  rw [buildUrlForDate_eq u d htfs hne hdec hfind]
  have hset := lookupQ_setQ u.query tfsKey
    [rstripEq (b64encode (blob.take s ++ isoDateBytes d ++ blob.drop (s + 10)))]
    (getTfsVal_isSome htfs)
  unfold decodeTfsOf getTfsVal
  dsimp only
  rw [hset]
  dsimp only
  have hblob := b64decode_bytes_lt hdec
  have hupd : ∀ b ∈ blob.take s ++ isoDateBytes d ++ blob.drop (s + 10), b < 256 := by
    intro b hb
    simp only [List.mem_append] at hb
    rcases hb with (hb | hb) | hb
    · exact hblob b (List.take_subset _ _ hb)
    · exact isoDateBytes_bytes_lt b hb
    · exact hblob b (List.drop_subset _ _ hb)
  exact b64_roundtrip _ hupd

/-- The patched blob's leftmost date match sits exactly where the original
one did (the new bytes have the same digit/dash shape). -/
theorem patched_findDateMatch {blob : List Nat} {s : Nat} (d : Date)
    (hy : d.year ≤ 9999) (hm : d.month ≤ 99) (hd : d.day ≤ 99)
    (hfind : findDateMatch blob = some s) :
    findDateMatch (blob.take s ++ isoDateBytes d ++ blob.drop (s + 10)) = some s := by
  have hmt := (findDateMatch_spec hfind).1
  obtain ⟨hD, hE⟩ := patched_classes d hy hm hd hmt
  have hl := (matchesDateAt_elim hmt).1
  have hlen := patched_length hl (isoDateBytes_length hy hm hd)
  rw [findDateMatch_congr hlen (matchesDateAt_congr hlen hD hE)]
  exact hfind

/-- C2: when the `tfs` parameter decodes to a blob containing a date-shaped
substring and the target date has a four-digit year, decoding the `tfs`
parameter of the rewritten URL yields bytes whose date substring (at the
same leftmost offset) is exactly the target date's ten ISO bytes, with
every byte outside that ten-byte window equal to the corresponding byte of
the original blob — ten bytes in, ten bytes out, nothing else altered. -/
theorem claim_C2_rewrite_roundtrip (u : UrlModel) (d : Date) (tfs : List Char)
    (blob : List Nat) (s : Nat)
    (htfs : getTfsVal u = some tfs) (hne : tfs ≠ [])
    (hdec : b64decode (tfs ++ b64pad tfs) = some blob)
    (hfind : findDateMatch blob = some s)
    (hv : d.Valid) (_hy4 : 1000 ≤ d.year) (hy9 : d.year ≤ 9999) :
    decodeTfsOf (buildUrlForDate u d) =
      some (blob.take s ++ isoDateBytes d ++ blob.drop (s + 10)) ∧
    (isoDateBytes d).length = 10 ∧
    (blob.take s ++ isoDateBytes d ++ blob.drop (s + 10)).length = blob.length ∧
    findDateMatch (blob.take s ++ isoDateBytes d ++ blob.drop (s + 10)) = some s ∧
    (∀ j, j < 10 → (blob.take s ++ isoDateBytes d ++ blob.drop (s + 10)).getD (s + j) 0 =
      (isoDateBytes d).getD j 0) ∧
    (∀ p, p < s ∨ s + 10 ≤ p →
      (blob.take s ++ isoDateBytes d ++ blob.drop (s + 10)).getD p 0 = blob.getD p 0) := by
  have hm99 : d.month ≤ 99 := by
    have := hv.2.2.1
    omega
  have hd99 : d.day ≤ 99 := by
    have h1 := hv.2.2.2.2
    have h2 := daysInMonth_le_31 d.year d.month
    omega
  have hmt := (findDateMatch_spec hfind).1
  have hl10 := (matchesDateAt_elim hmt).1
  have hiso := isoDateBytes_length hy9 hm99 hd99
  refine ⟨decodeTfs_buildUrl u d htfs hne hdec hfind, hiso, patched_length hl10 hiso,
    patched_findDateMatch d hy9 hm99 hd99 hfind, ?_, ?_⟩
  · intro j hj
    rw [patched_getD hl10 hiso (s + j)]
    split_ifs with h1 h2
    · exact absurd h1 (by omega)
    · have he : s + j - s = j := by omega
      rw [he]
    · exact absurd (by omega : s + j < s + 10) h2
  · intro p hp
    rw [patched_getD hl10 hiso p]
    split_ifs with h1 h2
    · rfl
    · rcases hp with hp | hp
      · exact absurd hp h1
      · exact absurd h2 (by omega)
    · rfl

/-- C2 witness: a URL whose `tfs` encodes `xx2025-10-04yy`, retargeted to
`2026-02-03`. -/
theorem claim_C2_witness :
    decodeTfsOf (buildUrlForDate
        ⟨[], [(tfsKey, [rstripEq (b64encode ("xx2025-10-04yy".toList.map Char.toNat))])], []⟩
        ⟨2026, 2, 3⟩) =
      some (("xx2025-10-04yy".toList.map Char.toNat).take 2 ++ isoDateBytes ⟨2026, 2, 3⟩ ++
        ("xx2025-10-04yy".toList.map Char.toNat).drop 12) ∧
    (isoDateBytes ⟨2026, 2, 3⟩ : List Nat).length = 10 ∧
    (("xx2025-10-04yy".toList.map Char.toNat).take 2 ++ isoDateBytes ⟨2026, 2, 3⟩ ++
      ("xx2025-10-04yy".toList.map Char.toNat).drop 12).length =
      ("xx2025-10-04yy".toList.map Char.toNat).length ∧
    findDateMatch (("xx2025-10-04yy".toList.map Char.toNat).take 2 ++ isoDateBytes ⟨2026, 2, 3⟩ ++
      ("xx2025-10-04yy".toList.map Char.toNat).drop 12) = some 2 ∧
    (∀ j, j < 10 →
      (("xx2025-10-04yy".toList.map Char.toNat).take 2 ++ isoDateBytes ⟨2026, 2, 3⟩ ++
        ("xx2025-10-04yy".toList.map Char.toNat).drop 12).getD (2 + j) 0 =
        (isoDateBytes ⟨2026, 2, 3⟩ : List Nat).getD j 0) ∧
    (∀ p, p < 2 ∨ 12 ≤ p →
      (("xx2025-10-04yy".toList.map Char.toNat).take 2 ++ isoDateBytes ⟨2026, 2, 3⟩ ++
        ("xx2025-10-04yy".toList.map Char.toNat).drop 12).getD p 0 =
        ("xx2025-10-04yy".toList.map Char.toNat).getD p 0) :=
  claim_C2_rewrite_roundtrip _ ⟨2026, 2, 3⟩
    (rstripEq (b64encode ("xx2025-10-04yy".toList.map Char.toNat)))
    ("xx2025-10-04yy".toList.map Char.toNat) 2
    (by decide) (by decide) (by decide) (by decide) (by decide) (by decide) (by decide)

/-- C3: when the `tfs` parameter is absent or empty, does not decode, or
decodes to bytes with no date-shaped substring, `build_url_for_date`
returns its input URL unchanged, whatever the target date. -/
theorem claim_C3_failsoft (u : UrlModel) (d : Date)
    (h : tfsRewriteApplies u = false) : buildUrlForDate u d = u := by
  unfold tfsRewriteApplies at h
  unfold buildUrlForDate
  rcases hg : getTfsVal u with _ | tfs
  · simp only [hg]
  · rw [hg] at h
    dsimp only at h
    simp only [hg]
    by_cases he : tfs = []
    · rw [if_pos he]
    · rw [if_neg he] at h ⊢
      rcases hb : b64decode (tfs ++ b64pad tfs) with _ | bs
      · simp only [hb]
      · rw [hb] at h
        dsimp only at h
        rcases hf : findDateMatch bs with _ | s
        · simp only [hb, hf]
        · rw [hf] at h
          simp at h

/-- C3 witness: a URL with no `tfs` parameter at all is returned
unchanged. -/
theorem claim_C3_witness :
    buildUrlForDate ⟨[], [], []⟩ ⟨2025, 1, 1⟩ = ⟨[], [], []⟩ :=
  claim_C3_failsoft _ _ (by decide)

/-- C10 (amended): the rewrite replaces only the earliest date-shaped
occurrence; every byte from the end of that ten-byte window onward is
unchanged, so every later date-shaped substring that does not overlap the
replaced window is preserved byte-for-byte.  (Overlapping date-shaped
substrings — which can share up to two bytes with the window — are not
preserved; see the counterexample.) -/
theorem claim_C10_disjoint_preserved (u : UrlModel) (d : Date) (tfs : List Char)
    (blob : List Nat) (s j : Nat)
    (htfs : getTfsVal u = some tfs) (hne : tfs ≠ [])
    (hdec : b64decode (tfs ++ b64pad tfs) = some blob)
    (hfind : findDateMatch blob = some s)
    (hv : d.Valid) (hy9 : d.year ≤ 9999)
    (hj : s + 10 ≤ j) (_hjmatch : matchesDateAt blob j = true) :
    decodeTfsOf (buildUrlForDate u d) =
      some (blob.take s ++ isoDateBytes d ++ blob.drop (s + 10)) ∧
    ∀ t, t < 10 →
      (blob.take s ++ isoDateBytes d ++ blob.drop (s + 10)).getD (j + t) 0 =
        blob.getD (j + t) 0 := by
  have hm99 : d.month ≤ 99 := by
    have := hv.2.2.1
    omega
  have hd99 : d.day ≤ 99 := by
    have h1 := hv.2.2.2.2
    have h2 := daysInMonth_le_31 d.year d.month
    omega
  have hmt := (findDateMatch_spec hfind).1
  have hl10 := (matchesDateAt_elim hmt).1
  have hiso := isoDateBytes_length hy9 hm99 hd99
  refine ⟨decodeTfs_buildUrl u d htfs hne hdec hfind, ?_⟩
  intro t ht
  rw [patched_getD hl10 hiso (j + t)]
  split_ifs with h1 h2
  · exact absurd h1 (by omega)
  · exact absurd h2 (by omega)
  · rfl

/-- C10 witness: a blob carrying a second, disjoint date substring; the
second one survives the rewrite byte-for-byte. -/
theorem claim_C10_witness :
    decodeTfsOf (buildUrlForDate
        ⟨[], [(tfsKey, [rstripEq (b64encode ("ab2025-10-04cd2026-01-01ef".toList.map Char.toNat))])], []⟩
        ⟨2027, 5, 6⟩) =
      some (("ab2025-10-04cd2026-01-01ef".toList.map Char.toNat).take 2 ++
        isoDateBytes ⟨2027, 5, 6⟩ ++
        ("ab2025-10-04cd2026-01-01ef".toList.map Char.toNat).drop 12) ∧
    (∀ t, t < 10 →
      (("ab2025-10-04cd2026-01-01ef".toList.map Char.toNat).take 2 ++
        isoDateBytes ⟨2027, 5, 6⟩ ++
        ("ab2025-10-04cd2026-01-01ef".toList.map Char.toNat).drop 12).getD (14 + t) 0 =
        ("ab2025-10-04cd2026-01-01ef".toList.map Char.toNat).getD (14 + t) 0) :=
  claim_C10_disjoint_preserved _ ⟨2027, 5, 6⟩
    (rstripEq (b64encode ("ab2025-10-04cd2026-01-01ef".toList.map Char.toNat)))
    ("ab2025-10-04cd2026-01-01ef".toList.map Char.toNat) 2 14
    (by decide) (by decide) (by decide) (by decide) (by decide) (by decide) (by decide)
    (by decide)

/-- C10 counterexample: in the blob `1111-11-1111-11-11` the earliest
date-shaped substring starts at 0 and another date-shaped substring starts
at 8, overlapping the replaced window; after rewriting to `2025-03-04` the
byte at offset 8 has changed, so the claim that every later date-shaped
substring is left unchanged is false on the code. -/
theorem claim_C10_counterexample :
    findDateMatch ("1111-11-1111-11-11".toList.map Char.toNat) = some 0 ∧
    matchesDateAt ("1111-11-1111-11-11".toList.map Char.toNat) 8 = true ∧
    decodeTfsOf (buildUrlForDate
        ⟨[], [(tfsKey, [rstripEq (b64encode ("1111-11-1111-11-11".toList.map Char.toNat))])], []⟩
        ⟨2025, 3, 4⟩) =
      some ("2025-03-0411-11-11".toList.map Char.toNat) ∧
    ("2025-03-0411-11-11".toList.map Char.toNat).getD 8 0 ≠
      ("1111-11-1111-11-11".toList.map Char.toNat).getD 8 0 := by
  refine ⟨by decide, by decide, by decide, by decide⟩

end Scrape
